import Mathlib

/- Verification development for the cache-visualizer repository.

   Shallow embedding of the simulation core:
   * `CacheState` / `CacheSimulator.new` / `CacheState.access` … model
     `src/src/simulation/cache.js` (class CacheSimulator).
   * `nestLoops` / `generateIterations` / `generateTiledIterations` model
     `src/src/rendering/index.js` (iterations module).
   * `createMatmulOperation` / `createConv2dOperation` model
     `src/src/simulation/memory.js` (matmul factory) and the conv2d factory.
   * The step engine (`executeStep`, `stepForward`, `jumpToIteration`, …)
     models the handlers module (`src/unnamed/part_005`).

   JavaScript numbers are modelled by `Nat`: every quantity involved (loop
   counters, addresses, counters, list lengths) is a non-negative integer in
   every reachable program state.  Fallible operations (unknown loop-order
   key) return `Option`. -/

/-! ## LRU cache simulator (`src/src/simulation/cache.js`) -/

/-- State of one `CacheSimulator` instance: constructor fields of the JS
class.  `lines` is ordered least-recently-used (front) to most-recently-used
(back). -/
structure CacheState where
  capacityBytes : Nat
  lineSize : Nat
  maxLines : Nat
  lines : List Nat
  totalAccesses : Nat
  hits : Nat
  misses : Nat
deriving DecidableEq, Repr

/-- `new CacheSimulator(capacityBytes, lineSize)`. -/
def CacheSimulator.new (capacityBytes lineSize : Nat) : CacheState :=
  { capacityBytes := capacityBytes
    lineSize := lineSize
    maxLines := capacityBytes / lineSize
    lines := []
    totalAccesses := 0
    hits := 0
    misses := 0 }

/-- `getLineAddress(address)`: round down to a multiple of `lineSize`. -/
def CacheState.getLineAddress (c : CacheState) (address : Nat) : Nat :=
  address / c.lineSize * c.lineSize

/-- `access(address)`.  Returns the hit/miss boolean together with the
updated state.  A hit splices the line out and pushes it at the
most-recently-used end; a miss evicts the front (`shift`) when the cache is
at capacity and then pushes the new line at the back. -/
def CacheState.access (c : CacheState) (address : Nat) : Bool × CacheState :=
  let c1 : CacheState := { c with totalAccesses := c.totalAccesses + 1 }
  let lineAddr := c1.getLineAddress address
  if lineAddr ∈ c1.lines then
    (true, { c1 with lines := c1.lines.erase lineAddr ++ [lineAddr]
                     hits := c1.hits + 1 })
  else
    (false, { c1 with
      lines := (if c1.lines.length ≥ c1.maxLines then c1.lines.tail else c1.lines) ++ [lineAddr]
      misses := c1.misses + 1 })

/-- `isAddressCached(address)`: pure membership query. -/
def CacheState.isAddressCached (c : CacheState) (address : Nat) : Bool :=
  decide (c.getLineAddress address ∈ c.lines)

/-- `reset()`. -/
def CacheState.reset (c : CacheState) : CacheState :=
  { c with lines := [], totalAccesses := 0, hits := 0, misses := 0 }

/-- The value copied by `snapshot()`: resident-line list plus the three
counters. -/
structure CacheSnapshot where
  lines : List Nat
  totalAccesses : Nat
  hits : Nat
  misses : Nat
deriving DecidableEq, Repr

/-- `snapshot()`. -/
def CacheState.snapshot (c : CacheState) : CacheSnapshot :=
  { lines := c.lines
    totalAccesses := c.totalAccesses
    hits := c.hits
    misses := c.misses }

/-- `restore(snap)`. -/
def CacheState.restore (snap : CacheSnapshot) (c : CacheState) : CacheState :=
  { c with lines := snap.lines
           totalAccesses := snap.totalAccesses
           hits := snap.hits
           misses := snap.misses }

/-- Run a sequence of `access` calls, collecting the hit/miss results. -/
def CacheState.runAccesses (c : CacheState) : List Nat → List Bool × CacheState
  | [] => ([], c)
  | a :: rest =>
    let r := c.access a
    let rest2 := r.2.runAccesses rest
    (r.1 :: rest2.1, rest2.2)

/-- An interaction with the cache: either an `access` or a `reset`. -/
inductive CacheOp where
  | acc (address : Nat) : CacheOp
  | reset : CacheOp
deriving DecidableEq, Repr

/-- Apply a sequence of `access`/`reset` calls to a cache. -/
def CacheState.applyOps (c : CacheState) : List CacheOp → CacheState
  | [] => c
  | CacheOp.acc a :: rest => (c.access a).2.applyOps rest
  | CacheOp.reset :: rest => c.reset.applyOps rest

/-! ## Cache theorems (claims C3, C5, C6) -/

lemma access_maxLines (c : CacheState) (a : Nat) : (c.access a).2.maxLines = c.maxLines := by
  simp only [CacheState.access]
  split <;> rfl

lemma access_lines_length_le (c : CacheState) (a : Nat) (h1 : 1 ≤ c.maxLines)
    (h2 : c.lines.length ≤ c.maxLines) : (c.access a).2.lines.length ≤ c.maxLines := by
  simp only [CacheState.access]
  split
  · rename_i hmem
    have hpos : 0 < c.lines.length := List.length_pos.mpr (List.ne_nil_of_mem hmem)
    simp only [List.length_append, List.length_erase_of_mem hmem, List.length_cons,
      List.length_nil]
    omega
  · split
    · rename_i hfull
      have hpos : 0 < c.lines.length := lt_of_lt_of_le h1 hfull
      simp only [List.length_append, List.length_tail, List.length_cons, List.length_nil]
      omega
    · rename_i hnotfull
      simp only [List.length_append, List.length_cons, List.length_nil]
      omega

lemma applyOps_lines_length_le (ops : List CacheOp) :
    ∀ c : CacheState, 1 ≤ c.maxLines → c.lines.length ≤ c.maxLines →
      (c.applyOps ops).lines.length ≤ c.maxLines := by
  induction ops with
  | nil => intro c _ h2; exact h2
  | cons op rest ih =>
    intro c h1 h2
    cases op with
    | acc a =>
      have hm := access_maxLines c a
      have := ih (c.access a).2 (by rw [hm]; exact h1)
        (by rw [hm]; exact access_lines_length_le c a h1 h2)
      rw [hm] at this
      exact this
    | reset =>
      have := ih c.reset h1 (by simp [CacheState.reset])
      exact this

/-- C3: `access(address)` increments the total-access counter and computes the
line address `⌊address/lineSize⌋·lineSize`; a resident line is moved to the
most-recently-used end with the hit counter incremented and a hit reported,
otherwise the least-recently-used line (front) is dropped when at capacity,
the new line is appended at the MRU end, the miss counter is incremented and a
miss is reported.  Concretely: for `Cache(64,16)`, `access(0)` misses,
`access(4)` hits (same line) and `access(16)` misses; for `Cache(32,16)`
(2 lines), accessing 0, 16, 32 evicts line 0, so `isAddressCached(0)` is false
while `isAddressCached(16)` and `isAddressCached(32)` are true. -/
theorem cache_access_contract :
    (∀ (c : CacheState) (a : Nat),
      (c.access a).2.totalAccesses = c.totalAccesses + 1 ∧
      ((c.access a).1 = true ↔ c.getLineAddress a ∈ c.lines) ∧
      (c.getLineAddress a ∈ c.lines →
        (c.access a).2.hits = c.hits + 1 ∧
        (c.access a).2.misses = c.misses ∧
        (c.access a).2.lines
          = c.lines.erase (c.getLineAddress a) ++ [c.getLineAddress a]) ∧
      (c.getLineAddress a ∉ c.lines →
        (c.access a).2.misses = c.misses + 1 ∧
        (c.access a).2.hits = c.hits ∧
        (c.access a).2.lines
          = (if c.lines.length ≥ c.maxLines then c.lines.tail else c.lines)
              ++ [c.getLineAddress a])) ∧
    ((CacheSimulator.new 64 16).runAccesses [0, 4, 16]).1 = [false, true, false] ∧
    (((CacheSimulator.new 32 16).runAccesses [0, 16, 32]).2.isAddressCached 0 = false ∧
      ((CacheSimulator.new 32 16).runAccesses [0, 16, 32]).2.isAddressCached 16 = true ∧
      ((CacheSimulator.new 32 16).runAccesses [0, 16, 32]).2.isAddressCached 32 = true) := by
  refine ⟨fun c a => ?_, by decide, by decide, by decide, by decide⟩
  by_cases hmem : c.getLineAddress a ∈ c.lines <;>
    simp only [CacheState.access, CacheState.getLineAddress] at hmem ⊢ <;>
    simp [hmem]

/-- Witness for C3: in `Cache(64,16)` after `access(0)`, the line of address 4
is resident, and the hit branch of the contract applies: `access(4)` increments
the hit counter. -/
theorem cache_access_contract_instance :
    ((CacheSimulator.new 64 16).access 0).2.getLineAddress 4
        ∈ ((CacheSimulator.new 64 16).access 0).2.lines ∧
      (((CacheSimulator.new 64 16).access 0).2.access 4).2.hits
        = ((CacheSimulator.new 64 16).access 0).2.hits + 1 :=
  ⟨by decide,
    ((cache_access_contract.1 ((CacheSimulator.new 64 16).access 0).2 4).2.2.1
      (by decide)).1⟩

/-- C5: `restore(snapshot())` leaves the cache in a state identical to the one
at snapshot time, and every sequence of accesses after the restore produces
exactly the same hit/miss results and counters as from the snapshotted
state. -/
theorem cache_snapshot_restore_roundtrip :
    ∀ c : CacheState,
      CacheState.restore c.snapshot c = c ∧
      ∀ addrs : List Nat,
        (CacheState.restore c.snapshot c).runAccesses addrs = c.runAccesses addrs :=
  fun _ => ⟨rfl, fun _ => rfl⟩

/-- Counterexample for C6: for `Cache(8,16)` we have `maxLines = 0`, yet a
single access leaves one resident line, so the resident-line count exceeds
`maxLines`.  The claim fails for caches whose capacity is smaller than one
line. -/
theorem cache_maxlines_zero_counterexample :
    (CacheSimulator.new 8 16).maxLines
      < ((CacheSimulator.new 8 16).access 0).2.lines.length := by decide

/-- C6 (amended): `maxLines = ⌊capacityBytes / lineSize⌋` always; and whenever
`maxLines ≥ 1` (i.e. the capacity holds at least one line), after every
sequence of `access`/`reset` calls from a freshly constructed cache the number
of resident lines never exceeds `maxLines`.  (When `maxLines = 0` a single
miss already stores one line, exceeding the bound.) -/
theorem cache_resident_lines_bounded :
    (∀ capacityBytes lineSize : Nat,
      (CacheSimulator.new capacityBytes lineSize).maxLines = capacityBytes / lineSize) ∧
    (∀ capacityBytes lineSize : Nat, ∀ ops : List CacheOp,
      1 ≤ (CacheSimulator.new capacityBytes lineSize).maxLines →
      ((CacheSimulator.new capacityBytes lineSize).applyOps ops).lines.length
        ≤ (CacheSimulator.new capacityBytes lineSize).maxLines) := by
  refine ⟨fun _ _ => rfl, fun capacityBytes lineSize ops h1 => ?_⟩
  exact applyOps_lines_length_le ops (CacheSimulator.new capacityBytes lineSize) h1
    (by simp [CacheSimulator.new])

/-- Witness for C6 (amended): `Cache(32,16)` has `maxLines = 2 ≥ 1` and after
accesses to 0, 16 and 32 the resident-line count is bounded by 2. -/
theorem cache_resident_lines_bounded_instance :
    ((CacheSimulator.new 32 16).applyOps
        [CacheOp.acc 0, CacheOp.acc 16, CacheOp.acc 32]).lines.length
      ≤ (CacheSimulator.new 32 16).maxLines :=
  cache_resident_lines_bounded.2 32 16 [CacheOp.acc 0, CacheOp.acc 16, CacheOp.acc 32]
    (by decide)

/-! ## Iteration records and operation descriptors -/

/-- An iteration record: the JS object mapping loop-dimension names (plus
`t…`/`l…` tile keys when tiling) to integer values, as an association list in
key-insertion order. -/
abbrev Rec := List (String × Nat)

/-- Property read `r[k]` on a record (0 for an absent key; absent keys are
never read on the records the generators produce). -/
def getv : Rec → String → Nat
  | [], _ => 0
  | (k', v) :: rest, k => if k' = k then v else getv rest k

/-- Functional update of the mutable `currentIndices` map
(`currentIndices[d] = v`). -/
def setIdx (cur : String → Nat) (d : String) (v : Nat) : String → Nat :=
  fun x => if x = d then v else cur x

/-- Tensor coordinates as returned by `getIndices` / `getCoordinatesFromLinear`:
2D `{row, col}`, 3D `{channel, row, col}`, 4D `{c_out, c_in, row, col}`. -/
inductive Coords where
  | c2 (row col : Nat) : Coords
  | c3 (channel row col : Nat) : Coords
  | c4 (c_out c_in row col : Nat) : Coords
deriving DecidableEq, Repr

/-- Tensor descriptor (the per-tensor objects built by the operation
factories).  Every tensor of both operations defines `getLinearIndex`, so it
is a mandatory field here. -/
structure Tensor where
  name : String
  baseAddress : Nat
  rows : Nat
  cols : Nat
  layoutOptions : List String
  getIndices : Rec → Coords
  getTotalElements : Nat
  getLinearIndex : Rec → String → Nat
  getCoordinatesFromLinear : Nat → String → Coords

/-- Operation descriptor (the objects built by `createMatmulOperation` /
`createConv2dOperation`); `loopBounds` is the JS bounds object as a function,
`loopOrders` the named-order table as an association list, and
`getTotalIterations` the value the JS method returns. -/
structure Operation where
  name : String
  elementSize : Nat
  loopDims : List String
  loopBounds : String → Nat
  loopOrders : List (String × List String)
  tensors : List Tensor
  getTotalIterations : Nat
  tileableDims : List String
  tileSizes : List Nat

/-- Property lookup in the `loopOrders` object. -/
def lookupOrder : List (String × List String) → String → Option (List String)
  | [], _ => none
  | (k, ord) :: rest, key => if k = key then some ord else lookupOrder rest key

/-! ## Non-tiled iteration generation (`generateIterations`) -/

/-- The recursive `nestLoops(depth, currentIndices)` closure: at each depth it
loops the dimension `order[depth]` over `0 ..< bounds[dim]`, and at the leaves
it materialises one record with the dimensions in `loopDims` order. -/
def nestLoops (bounds : String → Nat) (dims : List String) :
    List String → (String → Nat) → List Rec
  | [], cur => [dims.map fun d => (d, cur d)]
  | d :: rest, cur =>
    (List.range (bounds d)).flatMap fun i => nestLoops bounds dims rest (setIdx cur d i)

/-- `generateIterations(op, loopOrder)`; the thrown "Unknown loop order" error
is modelled by `none`. -/
def generateIterations (op : Operation) (loopOrder : String) : Option (List Rec) :=
  match lookupOrder op.loopOrders loopOrder with
  | none => none
  | some order => some (nestLoops op.loopBounds op.loopDims order fun _ => 0)

/-! ## Operation factories -/

/-- `createMatmulOperation(size, elementSize)` from
`src/src/simulation/memory.js`. -/
def createMatmulOperation (size elementSize : Nat) : Operation :=
  let elementsPerMatrix := size * size
  { name := "matmul"
    elementSize := elementSize
    loopDims := ["i", "j", "k"]
    loopBounds := fun d =>
      if d = "i" then size else if d = "j" then size else if d = "k" then size else 0
    loopOrders :=
      [("ijk", ["i", "j", "k"]), ("ikj", ["i", "k", "j"]), ("jik", ["j", "i", "k"]),
       ("jki", ["j", "k", "i"]), ("kij", ["k", "i", "j"]), ("kji", ["k", "j", "i"])]
    tensors :=
      [{ name := "A"
         baseAddress := 0
         rows := size
         cols := size
         layoutOptions := []
         getIndices := fun iter => Coords.c2 (getv iter "i") (getv iter "k")
         getTotalElements := size * size
         getLinearIndex := fun iter layout =>
           let row := getv iter "i"
           let col := getv iter "k"
           if layout = "col" then col * size + row else row * size + col
         getCoordinatesFromLinear := fun linearIdx layout =>
           if layout = "col" then Coords.c2 (linearIdx % size) (linearIdx / size)
           else Coords.c2 (linearIdx / size) (linearIdx % size) },
       { name := "B"
         baseAddress := elementsPerMatrix * elementSize
         rows := size
         cols := size
         layoutOptions := []
         getIndices := fun iter => Coords.c2 (getv iter "k") (getv iter "j")
         getTotalElements := size * size
         getLinearIndex := fun iter layout =>
           let row := getv iter "k"
           let col := getv iter "j"
           if layout = "col" then col * size + row else row * size + col
         getCoordinatesFromLinear := fun linearIdx layout =>
           if layout = "col" then Coords.c2 (linearIdx % size) (linearIdx / size)
           else Coords.c2 (linearIdx / size) (linearIdx % size) },
       { name := "C"
         baseAddress := 2 * elementsPerMatrix * elementSize
         rows := size
         cols := size
         layoutOptions := []
         getIndices := fun iter => Coords.c2 (getv iter "i") (getv iter "j")
         getTotalElements := size * size
         getLinearIndex := fun iter layout =>
           let row := getv iter "i"
           let col := getv iter "j"
           if layout = "col" then col * size + row else row * size + col
         getCoordinatesFromLinear := fun linearIdx layout =>
           if layout = "col" then Coords.c2 (linearIdx % size) (linearIdx / size)
           else Coords.c2 (linearIdx / size) (linearIdx % size) }]
    getTotalIterations := size * size * size
    tileableDims := ["i", "j", "k"]
    tileSizes := [2, 4, 6] }

/-- Constructor configuration of `createConv2dOperation` (the JS defaults are
`defaultConv2dConfig` below). -/
structure Conv2dConfig where
  inputH : Nat
  inputW : Nat
  channels_in : Nat
  channels_out : Nat
  kernelH : Nat
  kernelW : Nat
  elementSize : Nat
deriving DecidableEq, Repr

/-- The JS default configuration `{8, 8, 4, 4, 3, 3, 4}`. -/
def defaultConv2dConfig : Conv2dConfig :=
  { inputH := 8, inputW := 8, channels_in := 4, channels_out := 4,
    kernelH := 3, kernelW := 3, elementSize := 4 }

/-- `createConv2dOperation(config)` from the conv2d factory module.  The
derived extents `outputH = inputH - kernelH + 1` and
`outputW = inputW - kernelW + 1` use truncated subtraction; they agree with
the JS values whenever `kernelH ≤ inputH` and `kernelW ≤ inputW` (the spec
calls other configurations a fatal configuration error). -/
def createConv2dOperation (cfg : Conv2dConfig) : Operation :=
  let inputH := cfg.inputH
  let inputW := cfg.inputW
  let channels_in := cfg.channels_in
  let channels_out := cfg.channels_out
  let kernelH := cfg.kernelH
  let kernelW := cfg.kernelW
  let elementSize := cfg.elementSize
  let outputH := inputH - kernelH + 1
  let outputW := inputW - kernelW + 1
  let inputSize := inputH * inputW * channels_in
  let kernelSize := kernelH * kernelW * channels_in * channels_out
  { name := "conv2d"
    elementSize := elementSize
    loopDims := ["c_out", "h_out", "w_out", "c_in", "k_h", "k_w"]
    loopBounds := fun d =>
      if d = "c_out" then channels_out
      else if d = "h_out" then outputH
      else if d = "w_out" then outputW
      else if d = "c_in" then channels_in
      else if d = "k_h" then kernelH
      else if d = "k_w" then kernelW
      else 0
    loopOrders :=
      [("c_out,h_out,w_out,c_in,k_h,k_w", ["c_out", "h_out", "w_out", "c_in", "k_h", "k_w"]),
       ("h_out,w_out,c_out,c_in,k_h,k_w", ["h_out", "w_out", "c_out", "c_in", "k_h", "k_w"]),
       ("c_in,k_h,k_w,c_out,h_out,w_out", ["c_in", "k_h", "k_w", "c_out", "h_out", "w_out"]),
       ("k_h,k_w,c_in,c_out,h_out,w_out", ["k_h", "k_w", "c_in", "c_out", "h_out", "w_out"])]
    tensors :=
      [{ name := "Input"
         baseAddress := 0
         rows := inputH
         cols := inputW
         layoutOptions := ["CHW", "HWC"]
         getIndices := fun iter =>
           Coords.c3 (getv iter "c_in") (getv iter "h_out" + getv iter "k_h")
             (getv iter "w_out" + getv iter "k_w")
         getTotalElements := inputH * inputW * channels_in
         getLinearIndex := fun iter layout =>
           let c := getv iter "c_in"
           let h := getv iter "h_out" + getv iter "k_h"
           let w := getv iter "w_out" + getv iter "k_w"
           if layout = "HWC" then h * (inputW * channels_in) + w * channels_in + c
           else c * (inputH * inputW) + h * inputW + w
         getCoordinatesFromLinear := fun linearIdx layout =>
           if layout = "HWC" then
             Coords.c3 (linearIdx % channels_in)
               (linearIdx / (inputW * channels_in))
               (linearIdx % (inputW * channels_in) / channels_in)
           else
             Coords.c3 (linearIdx / (inputH * inputW))
               (linearIdx % (inputH * inputW) / inputW)
               (linearIdx % inputW) },
       { name := "Kernel"
         baseAddress := inputSize * elementSize
         rows := kernelH
         cols := kernelW
         layoutOptions := ["OIHW", "HWIO"]
         getIndices := fun iter =>
           Coords.c4 (getv iter "c_out") (getv iter "c_in") (getv iter "k_h") (getv iter "k_w")
         getTotalElements := kernelH * kernelW * channels_in * channels_out
         getLinearIndex := fun iter layout =>
           let o := getv iter "c_out"
           let i := getv iter "c_in"
           let h := getv iter "k_h"
           let w := getv iter "k_w"
           if layout = "HWIO" then
             h * (kernelW * channels_in * channels_out) + w * (channels_in * channels_out) +
               i * channels_out + o
           else
             o * (channels_in * kernelH * kernelW) + i * (kernelH * kernelW) + h * kernelW + w
         getCoordinatesFromLinear := fun linearIdx layout =>
           if layout = "HWIO" then
             let h := linearIdx / (kernelW * channels_in * channels_out)
             let remainder1 := linearIdx % (kernelW * channels_in * channels_out)
             let w := remainder1 / (channels_in * channels_out)
             let remainder2 := remainder1 % (channels_in * channels_out)
             let i := remainder2 / channels_out
             let o := remainder2 % channels_out
             Coords.c4 o i h w
           else
             let o := linearIdx / (channels_in * kernelH * kernelW)
             let remainder1 := linearIdx % (channels_in * kernelH * kernelW)
             let i := remainder1 / (kernelH * kernelW)
             let remainder2 := remainder1 % (kernelH * kernelW)
             let h := remainder2 / kernelW
             let w := remainder2 % kernelW
             Coords.c4 o i h w },
       { name := "Output"
         baseAddress := (inputSize + kernelSize) * elementSize
         rows := outputH
         cols := outputW
         layoutOptions := ["CHW", "HWC"]
         getIndices := fun iter =>
           Coords.c3 (getv iter "c_out") (getv iter "h_out") (getv iter "w_out")
         getTotalElements := outputH * outputW * channels_out
         getLinearIndex := fun iter layout =>
           let c := getv iter "c_out"
           let h := getv iter "h_out"
           let w := getv iter "w_out"
           if layout = "HWC" then h * (outputW * channels_out) + w * channels_out + c
           else c * (outputH * outputW) + h * outputW + w
         getCoordinatesFromLinear := fun linearIdx layout =>
           if layout = "HWC" then
             Coords.c3 (linearIdx % channels_out)
               (linearIdx / (outputW * channels_out))
               (linearIdx % (outputW * channels_out) / channels_out)
           else
             Coords.c3 (linearIdx / (outputH * outputW))
               (linearIdx % (outputH * outputW) / outputW)
               (linearIdx % outputW) }]
    getTotalIterations := channels_out * outputH * outputW * channels_in * kernelH * kernelW
    tileableDims := ["h_out", "w_out"]
    tileSizes := [2, 4] }

/-! ## Generic properties of `nestLoops` -/

lemma nestLoops_length (bounds : String → Nat) (dims : List String) :
    ∀ (order : List String) (cur : String → Nat),
      (nestLoops bounds dims order cur).length = (order.map bounds).prod := by
  intro order
  induction order with
  | nil => intro cur; rfl
  | cons d rest ih =>
    intro cur
    simp only [nestLoops, List.length_flatMap, List.map_cons, List.prod_cons,
      Function.comp_def]
    have hconst : (List.range (bounds d)).map
        (fun i => (nestLoops bounds dims rest (setIdx cur d i)).length)
        = List.replicate (bounds d) ((rest.map bounds).prod) := by
      rw [show (fun i => (nestLoops bounds dims rest (setIdx cur d i)).length)
          = fun _ => (rest.map bounds).prod from funext fun i => ih _]
      rw [List.map_const', List.length_range]
    rw [hconst, List.sum_replicate, smul_eq_mul]

lemma nestLoops_mem (bounds : String → Nat) (dims : List String) :
    ∀ (order : List String) (cur : String → Nat) (r : Rec),
      r ∈ nestLoops bounds dims order cur ↔
        ∃ f : String → Nat,
          (∀ k, k ∉ order → f k = cur k) ∧
          (∀ d ∈ order, f d < bounds d) ∧
          r = dims.map fun d => (d, f d) := by
  intro order
  induction order with
  | nil =>
    intro cur r
    simp only [nestLoops, List.mem_singleton]
    constructor
    · intro h
      exact ⟨cur, fun _ _ => rfl, by simp, h⟩
    · rintro ⟨f, hout, -, rfl⟩
      have hf : f = cur := funext fun k => hout k (List.not_mem_nil k)
      rw [hf]
  | cons d rest ih =>
    intro cur r
    simp only [nestLoops, List.mem_flatMap, List.mem_range]
    constructor
    · rintro ⟨i, hi, hr⟩
      obtain ⟨f, hout, hbdd, hrec⟩ := (ih _ r).mp hr
      refine ⟨f, ?_, ?_, hrec⟩
      · intro k hk
        have hkd : k ≠ d := fun h => hk (h ▸ List.mem_cons_self d rest)
        have hkrest : k ∉ rest := fun h => hk (List.mem_cons_of_mem d h)
        rw [hout k hkrest]
        simp [setIdx, hkd]
      · intro e he
        rcases List.mem_cons.mp he with rfl | he'
        · by_cases hd : e ∈ rest
          · exact hbdd e hd
          · rw [hout e hd]; simpa [setIdx] using hi
        · exact hbdd e he'
    · rintro ⟨f, hout, hbdd, hrec⟩
      refine ⟨f d, hbdd d (List.mem_cons_self d rest), (ih _ r).mpr ⟨f, ?_, ?_, hrec⟩⟩
      · intro k hk
        by_cases hkd : k = d
        · subst hkd; simp [setIdx]
        · rw [hout k (by simp [hkd, hk])]
          simp [setIdx, hkd]
      · exact fun e he => hbdd e (List.mem_cons_of_mem d he)

lemma map_pair_inj (dims : List String) (f g : String → Nat)
    (h : (dims.map fun d => (d, f d)) = dims.map fun d => (d, g d)) :
    ∀ d ∈ dims, f d = g d := by
  induction dims with
  | nil => intro d hd; cases hd
  | cons a rest ih =>
    simp only [List.map_cons, List.cons.injEq, Prod.mk.injEq] at h
    intro d hd
    rcases List.mem_cons.mp hd with rfl | hd'
    · exact h.1.2
    · exact ih h.2 d hd'

lemma nestLoops_nodup (bounds : String → Nat) (dims : List String) :
    ∀ (order : List String), order.Nodup → (∀ d ∈ order, d ∈ dims) →
      ∀ cur, (nestLoops bounds dims order cur).Nodup := by
  intro order
  induction order with
  | nil => intro _ _ cur; simp [nestLoops]
  | cons d rest ih =>
    intro hnd hsub cur
    have hd : d ∉ rest := (List.nodup_cons.mp hnd).1
    simp only [nestLoops]
    rw [List.nodup_flatMap]
    refine ⟨fun i _ => ih (List.nodup_cons.mp hnd).2
      (fun e he => hsub e (List.mem_cons_of_mem d he)) _, ?_⟩
    have hpw : List.Pairwise (· ≠ ·) (List.range (bounds d)) := List.nodup_range _
    refine hpw.imp ?_
    intro i j hij
    intro r hri hrj
    obtain ⟨f, hfout, -, hfrec⟩ := (nestLoops_mem bounds dims rest _ r).mp hri
    obtain ⟨g, hgout, -, hgrec⟩ := (nestLoops_mem bounds dims rest _ r).mp hrj
    have h1 : f d = i := by rw [hfout d hd]; simp [setIdx]
    have h2 : g d = j := by rw [hgout d hd]; simp [setIdx]
    have heq : ∀ e ∈ dims, f e = g e :=
      map_pair_inj dims f g (hfrec ▸ hgrec)
    exact hij (h1 ▸ h2 ▸ heq d (hsub d (List.mem_cons_self d rest)))

/-- The C1 contract for one operation and one loop-order key: whenever the
key is defined, the generated list has exactly `getTotalIterations()` records,
no duplicates, and its members are exactly the records of all bound-respecting
assignments to the loop dimensions (the full Cartesian product, each
combination exactly once). -/
def goodIterations (op : Operation) (key : String) : Prop :=
  ∀ its, generateIterations op key = some its →
    its.length = op.getTotalIterations ∧
    its.Nodup ∧
    ∀ r : Rec, r ∈ its ↔
      ∃ f : String → Nat, (∀ d ∈ op.loopDims, f d < op.loopBounds d) ∧
        r = op.loopDims.map fun d => (d, f d)

lemma goodIterations_of_perm (op : Operation) (key : String)
    (hords : ∀ order, lookupOrder op.loopOrders key = some order → order.Perm op.loopDims)
    (htot : (op.loopDims.map op.loopBounds).prod = op.getTotalIterations)
    (hnd : op.loopDims.Nodup) :
    goodIterations op key := by
  intro its hits
  unfold generateIterations at hits
  cases hord : lookupOrder op.loopOrders key with
  | none => rw [hord] at hits; cases hits
  | some order =>
    rw [hord] at hits
    have hperm := hords order hord
    cases hits
    refine ⟨?_, ?_, ?_⟩
    · rw [nestLoops_length, (hperm.map op.loopBounds).prod_eq, htot]
    · exact nestLoops_nodup op.loopBounds op.loopDims order
        (hperm.nodup_iff.mpr hnd) (fun d hd => hperm.mem_iff.mp hd) _
    · intro r
      rw [nestLoops_mem]
      constructor
      · rintro ⟨f, -, hbdd, hrec⟩
        exact ⟨f, fun d hd => hbdd d (hperm.mem_iff.mpr hd), hrec⟩
      · rintro ⟨f, hbdd, hrec⟩
        refine ⟨fun k => if k ∈ order then f k else 0, ?_, ?_, ?_⟩
        · intro k hk; simp [hk]
        · intro d hd; simp only [hd, if_true]; exact hbdd d (hperm.mem_iff.mp hd)
        · rw [hrec]
          exact List.map_congr_left fun d hd => by
            simp [hperm.mem_iff.mpr hd]

lemma matmul_loopDims (size es : Nat) :
    (createMatmulOperation size es).loopDims = ["i", "j", "k"] := rfl

lemma conv2d_loopDims (cfg : Conv2dConfig) :
    (createConv2dOperation cfg).loopDims
      = ["c_out", "h_out", "w_out", "c_in", "k_h", "k_w"] := rfl

lemma matmul_lookup_perm (size es : Nat) :
    ∀ key order,
      lookupOrder (createMatmulOperation size es).loopOrders key = some order →
        order.Perm (createMatmulOperation size es).loopDims := by
  intro key order h
  simp only [createMatmulOperation, lookupOrder] at h
  rw [matmul_loopDims]
  split_ifs at h <;> (cases h; decide)

lemma conv2d_lookup_perm (cfg : Conv2dConfig) :
    ∀ key order,
      lookupOrder (createConv2dOperation cfg).loopOrders key = some order →
        order.Perm (createConv2dOperation cfg).loopDims := by
  intro key order h
  simp only [createConv2dOperation, lookupOrder] at h
  rw [conv2d_loopDims]
  split_ifs at h <;> (cases h; decide)

/-- C1: for both operations (matmul for any size, conv2d for any
configuration) and every loop-order key defined in `loopOrders`,
`generateIterations` returns exactly `getTotalIterations()` records, without
duplicate dimension-value tuples, covering the full Cartesian product of
`loopBounds` — each combination exactly once, whatever the order key. -/
theorem generateIterations_covers (size es : Nat) (cfg : Conv2dConfig) (key : String) :
    goodIterations (createMatmulOperation size es) key ∧
    goodIterations (createConv2dOperation cfg) key := by
  constructor
  · refine goodIterations_of_perm _ _ (matmul_lookup_perm size es key) ?_
      (by rw [matmul_loopDims]; decide)
    simp [createMatmulOperation]
    ring
  · refine goodIterations_of_perm _ _ (conv2d_lookup_perm cfg key) ?_
      (by rw [conv2d_loopDims]; decide)
    simp [createConv2dOperation]
    ring

/-- Witness for C1: for matmul with size 2 the defined order "ijk" yields a
list whose length is `getTotalIterations()` (= 8). -/
theorem generateIterations_covers_instance :
    ((generateIterations (createMatmulOperation 2 4) "ijk").getD []).length
      = (createMatmulOperation 2 4).getTotalIterations :=
  ((generateIterations_covers 2 4 defaultConv2dConfig "ijk").1
    ((generateIterations (createMatmulOperation 2 4) "ijk").getD []) (by decide)).1

/-! ## Tiled iteration generation (`generateTiledIterations`) -/

/-- One entry of the `loopSpec` array built by `generateTiledIterations`:
a simple full-bound loop, a tile loop (stepping by `tileSize`), or an element
loop over one tile of a tiled dimension. -/
inductive LoopSpec where
  | simple (dim : String) (bound : Nat) : LoopSpec
  | tile (dim tiledDim : String) (bound step : Nat) : LoopSpec
  | element (dim tiledDim : String) (bound tileSize : Nat) : LoopSpec
deriving DecidableEq, Repr

/-- The `currentIndices` key written by a loop-spec entry (its `dim` field). -/
def LoopSpec.key : LoopSpec → String
  | .simple d _ => d
  | .tile d _ _ _ => d
  | .element d _ _ _ => d

/-- The record built at the innermost level of the tiled nest: for each loop
dimension its value, and for each tileable dimension additionally the tile
origin (`t…` key) and the local offset (`l…` key, = value − origin). -/
def leafRec (dims tileable : List String) (cur : String → Nat) : Rec :=
  dims.flatMap fun d =>
    (d, cur d) ::
      (if d ∈ tileable then
        [("t" ++ d, cur ("t" ++ d)), ("l" ++ d, cur d - cur ("t" ++ d))]
       else [])

/-- The values a loop-spec entry iterates over, given the current indices:
`for (v = 0; v < bound; v++)` for a simple loop,
`for (t = 0; t < bound; t += step)` for a tile loop (`⌈bound/step⌉` values for
`step ≥ 1`), and `for (e = tileBase; e < min(tileBase+tileSize, bound); e++)`
for an element loop. -/
def valsOf (spec : LoopSpec) (cur : String → Nat) : List Nat :=
  match spec with
  | .simple _ b => List.range b
  | .tile _ _ b s => List.range' 0 ((b + s - 1) / s) s
  | .element _ td b ts =>
    let tileBase := cur ("t" ++ td)
    List.range' tileBase (min (tileBase + ts) b - tileBase)

/-- The recursive `nest(depth, currentIndices)` closure of
`generateTiledIterations`. -/
def tnest (dims tileable : List String) : List LoopSpec → (String → Nat) → List Rec
  | [], cur => [leafRec dims tileable cur]
  | spec :: rest, cur =>
    (valsOf spec cur).flatMap fun v => tnest dims tileable rest (setIdx cur spec.key v)

/-- The `loopSpec` array: phase 1 are the non-tiled dimensions before the
first tileable one, phase 2 the tile loops of all tileable dimensions in
order, phase 3 everything from the first tileable dimension onwards (element
loops for tileable dimensions, simple loops otherwise). -/
def buildLoopSpec (bounds : String → Nat) (order tileable : List String)
    (tileSize firstTiledIdx : Nat) : List LoopSpec :=
  ((order.take firstTiledIdx).map fun d => LoopSpec.simple d (bounds d))
    ++ ((order.filter fun d => decide (d ∈ tileable)).map
        fun d => LoopSpec.tile ("t" ++ d) d (bounds d) tileSize)
    ++ ((order.drop firstTiledIdx).map fun d =>
        if d ∈ tileable then LoopSpec.element d d (bounds d) tileSize
        else LoopSpec.simple d (bounds d))

/-- `generateTiledIterations(op, loopOrder, tileSize)`.  (Both operations
define `tileableDims`, so the `op.tileableDims || op.loopDims` fallback is the
field itself.)  When no dimension of the order is tileable it delegates to
`generateIterations`. -/
def generateTiledIterations (op : Operation) (loopOrder : String) (tileSize : Nat) :
    Option (List Rec) :=
  match lookupOrder op.loopOrders loopOrder with
  | none => none
  | some order =>
    match order.findIdx? (fun d => decide (d ∈ op.tileableDims)) with
    | none => generateIterations op loopOrder
    | some firstTiledIdx =>
      some (tnest op.loopDims op.tileableDims
        (buildLoopSpec op.loopBounds order op.tileableDims tileSize firstTiledIdx)
        fun _ => 0)

/-! ## Characterisation of the tiled nest -/

/-- Per-entry wellformedness: tile loops have a positive step, and an element
loop's own key differs from the tile-origin key it reads. -/
def specOK : LoopSpec → Prop
  | .simple _ _ => True
  | .tile _ _ _ s => 1 ≤ s
  | .element d td _ _ => d ≠ "t" ++ td

/-- The tile-origin key read by an element loop (none for other entries). -/
def LoopSpec.elemTkey : LoopSpec → Option String
  | .element _ td _ _ => some ("t" ++ td)
  | _ => none

/-- Separation between an earlier and a later loop-spec entry: distinct keys,
and a later entry never overwrites the tile-origin key an earlier element
loop reads. -/
def specSep (a b : LoopSpec) : Prop :=
  a.key ≠ b.key ∧ a.elemTkey ≠ some b.key

/-- The constraint a loop-spec entry places on the final index assignment. -/
def cstr (f : String → Nat) : LoopSpec → Prop
  | .simple d b => f d < b
  | .tile d _ b s => f d < b ∧ f d % s = 0
  | .element d td b ts =>
    f ("t" ++ td) ≤ f d ∧ f d < f ("t" ++ td) + ts ∧ f d < b

lemma mem_tileVals (b s v : Nat) (hs : 1 ≤ s) :
    v ∈ List.range' 0 ((b + s - 1) / s) s ↔ v < b ∧ v % s = 0 := by
  rw [List.mem_range']
  constructor
  · rintro ⟨i, hi, rfl⟩
    have h2 : (i + 1) * s ≤ b + s - 1 := (Nat.le_div_iff_mul_le hs).mp hi
    rw [add_mul, one_mul, mul_comm i s] at h2
    refine ⟨by omega, by simp [Nat.mul_mod_right]⟩
  · rintro ⟨hvb, hvs⟩
    have hdvd : s ∣ v := Nat.dvd_of_mod_eq_zero hvs
    have hmul : s * (v / s) = v := Nat.mul_div_cancel' hdvd
    refine ⟨v / s, ?_, by omega⟩
    have h3 : (v / s + 1) * s ≤ b + s - 1 := by
      rw [add_mul, one_mul, mul_comm (v / s) s, hmul]
      omega
    exact (Nat.le_div_iff_mul_le hs).mpr h3

lemma mem_elemVals (tb ts b v : Nat) :
    v ∈ List.range' tb (min (tb + ts) b - tb) ↔ tb ≤ v ∧ v < tb + ts ∧ v < b := by
  rw [List.mem_range']
  constructor
  · rintro ⟨i, hi, rfl⟩; omega
  · intro h; exact ⟨v - tb, by omega, by omega⟩

lemma tnest_mem (dims tileable : List String) :
    ∀ (specs : List LoopSpec) (cur : String → Nat) (r : Rec),
      specs.Pairwise specSep → (∀ sp ∈ specs, specOK sp) →
      (r ∈ tnest dims tileable specs cur ↔
        ∃ f : String → Nat,
          (∀ k, k ∉ specs.map LoopSpec.key → f k = cur k) ∧
          (∀ sp ∈ specs, cstr f sp) ∧
          r = leafRec dims tileable f) := by
  intro specs
  induction specs with
  | nil =>
    intro cur r _ _
    simp only [tnest, List.mem_singleton]
    constructor
    · intro h
      exact ⟨cur, fun _ _ => rfl, by simp, h⟩
    · rintro ⟨f, hout, -, rfl⟩
      have hf : f = cur := funext fun k => hout k (List.not_mem_nil k)
      rw [hf]
  | cons sp rest ih =>
    intro cur r hpw hok
    have hpw' := (List.pairwise_cons.mp hpw).2
    have hsep := (List.pairwise_cons.mp hpw).1
    have hok' : ∀ sq ∈ rest, specOK sq := fun sq hsq => hok sq (List.mem_cons_of_mem sp hsq)
    have hkeyrest : sp.key ∉ rest.map LoopSpec.key := by
      rw [List.mem_map]
      rintro ⟨b, hb, hkb⟩
      exact (hsep b hb).1 hkb.symm
    simp only [tnest, List.mem_flatMap]
    constructor
    · rintro ⟨v, hv, hr⟩
      obtain ⟨f, hout, hc, hrec⟩ := (ih _ r hpw' hok').mp hr
      have hfk : f sp.key = v := by
        rw [hout sp.key hkeyrest]; simp [setIdx]
      refine ⟨f, ?_, ?_, hrec⟩
      · intro k hk
        simp only [List.map_cons, List.mem_cons, not_or] at hk
        rw [hout k hk.2]
        simp [setIdx, hk.1]
      · intro sq hsq
        rcases List.mem_cons.mp hsq with rfl | hsq'
        · cases sq with
          | simple d b =>
            rw [valsOf, List.mem_range] at hv
            have hfd : f d = v := hfk
            simp only [cstr]
            rw [hfd]
            exact hv
          | tile d td b s =>
            have hs : 1 ≤ s := hok _ (List.mem_cons_self _ _)
            rw [valsOf, mem_tileVals b s v hs] at hv
            exact ⟨by rw [show f d = v from hfk]; exact hv.1,
                   by rw [show f d = v from hfk]; exact hv.2⟩
          | element d td b ts =>
            have hdt : d ≠ "t" ++ td := hok _ (List.mem_cons_self _ _)
            have htk : ("t" ++ td) ∉ (LoopSpec.element d td b ts :: rest).map LoopSpec.key := by
              simp only [List.map_cons, List.mem_cons, not_or, List.mem_map]
              refine ⟨fun h => hdt h.symm, ?_⟩
              rintro ⟨b', hb', hkb'⟩
              exact (hsep b' hb').2 (by simp [LoopSpec.elemTkey, hkb'])
            have hft : f ("t" ++ td) = cur ("t" ++ td) := by
              have htk' : ("t" ++ td) ∉ rest.map LoopSpec.key :=
                fun h => htk (List.mem_cons_of_mem _ h)
              have hne : ("t" ++ td) ≠ d := fun h => hdt h.symm
              rw [hout _ htk']
              simp [setIdx, LoopSpec.key, hne]
            rw [valsOf, mem_elemVals] at hv
            have hfd : f d = v := hfk
            exact ⟨by rw [hft, hfd]; exact hv.1,
                   by rw [hft, hfd]; exact hv.2.1,
                   by rw [hfd]; exact hv.2.2⟩
        · exact hc sq hsq'
    · rintro ⟨f, hout, hc, hrec⟩
      have hval : f sp.key ∈ valsOf sp cur := by
        cases sp with
        | simple d b =>
          simpa [valsOf, List.mem_range, LoopSpec.key] using hc _ (List.mem_cons_self _ _)
        | tile d td b s =>
          have hs : 1 ≤ s := hok _ (List.mem_cons_self _ _)
          rw [valsOf, mem_tileVals b s _ hs]
          exact hc _ (List.mem_cons_self _ _)
        | element d td b ts =>
          have hdt : d ≠ "t" ++ td := hok _ (List.mem_cons_self _ _)
          have hcon := hc _ (List.mem_cons_self _ _)
          have htk' : ("t" ++ td) ∉ (LoopSpec.element d td b ts :: rest).map LoopSpec.key := by
            simp only [List.map_cons, List.mem_cons, not_or, List.mem_map]
            refine ⟨fun h => hdt h.symm, ?_⟩
            rintro ⟨b', hb', hkb'⟩
            exact (hsep b' hb').2 (by simp [LoopSpec.elemTkey, hkb'])
          have hft : cur ("t" ++ td) = f ("t" ++ td) := (hout _ htk').symm
          rw [valsOf, mem_elemVals, hft]
          exact hcon
      refine ⟨f sp.key, hval, (ih _ r hpw' hok').mpr ⟨f, ?_, fun sq hsq => hc sq (List.mem_cons_of_mem sp hsq), hrec⟩⟩
      intro k hk
      by_cases hkd : k = sp.key
      · subst hkd; simp [setIdx]
      · rw [hout k (by simp only [List.map_cons, List.mem_cons, not_or]; exact ⟨hkd, hk⟩)]
        simp [setIdx, hkd]

lemma leafRec_inj_on (tileable : List String) (f g : String → Nat) :
    ∀ dims : List String,
      leafRec dims tileable f = leafRec dims tileable g →
      ∀ d ∈ dims, f d = g d ∧ (d ∈ tileable → f ("t" ++ d) = g ("t" ++ d)) := by
  intro dims
  induction dims with
  | nil => intro _ d hd; cases hd
  | cons a rest ih =>
    intro h d hd
    by_cases ha : a ∈ tileable
    · simp only [leafRec, List.flatMap_cons, ha, if_true, List.cons_append,
        List.nil_append, List.cons.injEq, Prod.mk.injEq, true_and] at h
      obtain ⟨h1, h2, -, h4⟩ := h
      rcases List.mem_cons.mp hd with rfl | hd'
      · exact ⟨h1, fun _ => h2⟩
      · exact ih h4 d hd'
    · simp only [leafRec, List.flatMap_cons, ha, if_false, List.cons_append,
        List.nil_append, List.cons.injEq, Prod.mk.injEq, true_and] at h
      obtain ⟨h1, h4⟩ := h
      rcases List.mem_cons.mp hd with rfl | hd'
      · exact ⟨h1, fun hdt => absurd hdt ha⟩
      · exact ih h4 d hd'

lemma tnest_nodup (dims tileable : List String) :
    ∀ (specs : List LoopSpec) (cur : String → Nat),
      specs.Pairwise specSep → (∀ sp ∈ specs, specOK sp) →
      (∀ sp ∈ specs, sp.key ∈ dims ∨ ∃ d ∈ dims, d ∈ tileable ∧ sp.key = "t" ++ d) →
      (tnest dims tileable specs cur).Nodup := by
  intro specs
  induction specs with
  | nil => intro cur _ _ _; simp [tnest]
  | cons sp rest ih =>
    intro cur hpw hok hexp
    have hpw' := (List.pairwise_cons.mp hpw).2
    have hok' : ∀ q ∈ rest, specOK q := fun q hq => hok q (List.mem_cons_of_mem _ hq)
    simp only [tnest]
    rw [List.nodup_flatMap]
    refine ⟨fun v _ => ih _ hpw' hok'
      (fun q hq => hexp q (List.mem_cons_of_mem _ hq)), ?_⟩
    have hvnodup : (valsOf sp cur).Nodup := by
      cases sp with
      | simple d b => exact List.nodup_range b
      | tile d td b s =>
        exact List.nodup_range' 0 ((b + s - 1) / s) s (hok _ (List.mem_cons_self _ _))
      | element d td b ts => exact List.nodup_range' _ _
    refine List.Pairwise.imp ?_ hvnodup
    intro v w hvw
    intro r hrv hrw
    obtain ⟨f, hfout, -, hfrec⟩ := (tnest_mem dims tileable rest _ r hpw' hok').mp hrv
    obtain ⟨g, hgout, -, hgrec⟩ := (tnest_mem dims tileable rest _ r hpw' hok').mp hrw
    have hkeyrest : sp.key ∉ rest.map LoopSpec.key := by
      rw [List.mem_map]
      rintro ⟨b, hb, hkb⟩
      exact ((List.pairwise_cons.mp hpw).1 b hb).1 hkb.symm
    have h1 : f sp.key = v := by rw [hfout sp.key hkeyrest]; simp [setIdx]
    have h2 : g sp.key = w := by rw [hgout sp.key hkeyrest]; simp [setIdx]
    have heq := leafRec_inj_on tileable f g dims (hfrec ▸ hgrec)
    rcases hexp sp (List.mem_cons_self _ _) with hk | ⟨d, hd, hdt, hk⟩
    · exact hvw (h1 ▸ h2 ▸ (heq sp.key hk).1)
    · have := (heq d hd).2 hdt
      rw [← hk] at this
      exact hvw (h1 ▸ h2 ▸ this)

/-- Key-freshness facts about the concrete dimension names of an operation:
no dimension name collides with a `t…`/`l…` tile key, and the tile keys of
distinct dimensions are distinct.  Decidable, checked by `decide` for both
operations. -/
def dimsOK (dims : List String) : Prop :=
  dims.Nodup ∧
  ∀ a ∈ dims, ∀ b ∈ dims,
    "t" ++ b ≠ a ∧ "l" ++ b ≠ a ∧ ("t" ++ a = "t" ++ b → a = b) ∧
    "t" ++ a ≠ "l" ++ b ∧ ("l" ++ a = "l" ++ b → a = b)

lemma getv_leafRec_dim (tileable : List String) (f : String → Nat) :
    ∀ dims : List String, dimsOK dims → ∀ d ∈ dims,
      getv (leafRec dims tileable f) d = f d := by
  intro dims
  induction dims with
  | nil => intro _ d hd; cases hd
  | cons a rest ih =>
    intro hok d hd
    have hok' : dimsOK rest :=
      ⟨(List.nodup_cons.mp hok.1).2,
        fun x hx y hy => hok.2 x (List.mem_cons_of_mem _ hx) y (List.mem_cons_of_mem _ hy)⟩
    by_cases hda : a = d
    · subst hda
      by_cases ha : a ∈ tileable <;> simp [leafRec, List.flatMap_cons, ha, getv]
    · have hd' : d ∈ rest := by
        rcases List.mem_cons.mp hd with rfl | hd' <;> [exact absurd rfl hda; exact hd']
      have hfr := hok.2 d hd a (List.mem_cons_self _ _)
      by_cases ha : a ∈ tileable
      · simp only [leafRec, List.flatMap_cons, ha, if_true, List.cons_append,
          List.nil_append, getv, hda, if_false, hfr.1, hfr.2.1]
        exact ih hok' d hd'
      · simp only [leafRec, List.flatMap_cons, ha, if_false, List.cons_append,
          List.nil_append, getv, hda]
        exact ih hok' d hd'

lemma getv_leafRec_tkey (tileable : List String) (f : String → Nat) :
    ∀ dims : List String, dimsOK dims → ∀ d ∈ dims, d ∈ tileable →
      getv (leafRec dims tileable f) ("t" ++ d) = f ("t" ++ d) := by
  intro dims
  induction dims with
  | nil => intro _ d hd; cases hd
  | cons a rest ih =>
    intro hok d hd hdt
    have hok' : dimsOK rest :=
      ⟨(List.nodup_cons.mp hok.1).2,
        fun x hx y hy => hok.2 x (List.mem_cons_of_mem _ hx) y (List.mem_cons_of_mem _ hy)⟩
    have hfr := hok.2 d hd a (List.mem_cons_self _ _)
    have hfrself := hok.2 a (List.mem_cons_self _ _) d hd
    by_cases hda : a = d
    · subst hda
      have hself := hok.2 a (List.mem_cons_self _ _) a (List.mem_cons_self _ _)
      simp only [leafRec, List.flatMap_cons, hdt, if_true, List.cons_append,
        List.nil_append, getv]
      rw [if_neg (show ¬a = "t" ++ a from fun h => hself.1 h.symm)]
    · have hd' : d ∈ rest := by
        rcases List.mem_cons.mp hd with rfl | hd' <;> [exact absurd rfl hda; exact hd']
      have h1 : ¬a = "t" ++ d := fun h => hfrself.1 h.symm
      by_cases ha : a ∈ tileable
      · have h2 : ¬("t" ++ a = "t" ++ d) := fun h => hda (hfrself.2.2.1 h)
        have h3 : ¬("l" ++ a = "t" ++ d) := fun h => hfr.2.2.2.1 h.symm
        simp only [leafRec, List.flatMap_cons, ha, if_true, List.cons_append,
          List.nil_append, getv]
        rw [if_neg h1, if_neg h2, if_neg h3]
        exact ih hok' d hd' hdt
      · simp only [leafRec, List.flatMap_cons, ha, if_false, List.cons_append,
          List.nil_append, getv]
        rw [if_neg h1]
        exact ih hok' d hd' hdt

lemma getv_leafRec_lkey (tileable : List String) (f : String → Nat) :
    ∀ dims : List String, dimsOK dims → ∀ d ∈ dims, d ∈ tileable →
      getv (leafRec dims tileable f) ("l" ++ d) = f d - f ("t" ++ d) := by
  intro dims
  induction dims with
  | nil => intro _ d hd; cases hd
  | cons a rest ih =>
    intro hok d hd hdt
    have hok' : dimsOK rest :=
      ⟨(List.nodup_cons.mp hok.1).2,
        fun x hx y hy => hok.2 x (List.mem_cons_of_mem _ hx) y (List.mem_cons_of_mem _ hy)⟩
    have hfrself := hok.2 a (List.mem_cons_self _ _) d hd
    by_cases hda : a = d
    · subst hda
      have hself := hok.2 a (List.mem_cons_self _ _) a (List.mem_cons_self _ _)
      simp only [leafRec, List.flatMap_cons, hdt, if_true, List.cons_append,
        List.nil_append, getv]
      rw [if_neg (show ¬a = "l" ++ a from fun h => hself.2.1 h.symm),
        if_neg hself.2.2.2.1]
    · have hd' : d ∈ rest := by
        rcases List.mem_cons.mp hd with rfl | hd' <;> [exact absurd rfl hda; exact hd']
      have h1 : ¬a = "l" ++ d := fun h => hfrself.2.1 h.symm
      by_cases ha : a ∈ tileable
      · have h2 : ¬("t" ++ a = "l" ++ d) := hfrself.2.2.2.1
        have h3 : ¬("l" ++ a = "l" ++ d) := fun h => hda (hfrself.2.2.2.2 h)
        simp only [leafRec, List.flatMap_cons, ha, if_true, List.cons_append,
          List.nil_append, getv]
        rw [if_neg h1, if_neg h2, if_neg h3]
        exact ih hok' d hd' hdt
      · simp only [leafRec, List.flatMap_cons, ha, if_false, List.cons_append,
          List.nil_append, getv]
        rw [if_neg h1]
        exact ih hok' d hd' hdt

/-- Projection of a record onto the loop dimensions (the dimension-value
tuple of a record). -/
def projToDims (dims : List String) (r : Rec) : Rec :=
  dims.map fun d => (d, getv r d)

lemma projToDims_leafRec (dims tileable : List String) (hok : dimsOK dims)
    (f : String → Nat) :
    projToDims dims (leafRec dims tileable f) = dims.map fun d => (d, f d) :=
  List.map_congr_left fun d hd => by rw [getv_leafRec_dim tileable f dims hok d hd]

lemma leafRec_congr (tileable : List String) (f g : String → Nat) :
    ∀ dims : List String,
      (∀ d ∈ dims, f d = g d ∧ (d ∈ tileable → f ("t" ++ d) = g ("t" ++ d))) →
      leafRec dims tileable f = leafRec dims tileable g := by
  intro dims
  induction dims with
  | nil => intro _; rfl
  | cons a rest ih =>
    intro h
    have ha := h a (List.mem_cons_self _ _)
    have hrest := ih fun d hd => h d (List.mem_cons_of_mem _ hd)
    by_cases hat : a ∈ tileable
    · simp only [leafRec, List.flatMap_cons, hat, if_true] at hrest ⊢
      rw [ha.1, ha.2 hat, hrest]
    · simp only [leafRec, List.flatMap_cons, hat, if_false] at hrest ⊢
      rw [ha.1, hrest]

lemma tile_origin_unique (ts v x : Nat) (h0 : x % ts = 0) (h1 : x ≤ v)
    (h2 : v < x + ts) : x = ts * (v / ts) := by
  rcases Nat.eq_zero_or_pos ts with rfl | hts
  · omega
  · obtain ⟨q, rfl⟩ : ts ∣ x := Nat.dvd_of_mod_eq_zero h0
    have hq : v / ts = q := by
      refine Nat.div_eq_of_lt_le (by rw [mul_comm]; exact h1) ?_
      rw [add_mul, one_mul, mul_comm]
      omega
    rw [hq]

/-- The index-map key written by each phase-3 spec is the dimension itself. -/
lemma keyIf (tileable : List String) (bounds : String → Nat) (ts : Nat) (d : String) :
    (if d ∈ tileable then LoopSpec.element d d (bounds d) ts
     else LoopSpec.simple d (bounds d)).key = d := by
  by_cases h : d ∈ tileable <;> simp [h, LoopSpec.key]

lemma map_key_id (f : String → LoopSpec) (hf : ∀ d, (f d).key = d) :
    ∀ l : List String, (l.map f).map LoopSpec.key = l := by
  intro l
  induction l with
  | nil => rfl
  | cons a rest ih => simp [hf, ih]

lemma buildLoopSpec_keys (bounds : String → Nat) (order tileable : List String)
    (ts fti : Nat) :
    (buildLoopSpec bounds order tileable ts fti).map LoopSpec.key
      = (order.take fti
          ++ ((order.filter fun d => decide (d ∈ tileable)).map fun d => "t" ++ d))
          ++ order.drop fti := by
  simp only [buildLoopSpec, List.map_append]
  congr 1
  congr 1
  · exact map_key_id (fun d => LoopSpec.simple d (bounds d)) (fun d => rfl) _
  · rw [List.map_map]; rfl
  · exact map_key_id _ (keyIf tileable bounds ts) _

lemma specSep_of (a b : LoopSpec) (h1 : ¬a.key = b.key) (h2 : ¬a.elemTkey = some b.key) :
    specSep a b := ⟨h1, h2⟩

/-- Pairwise separation, per-entry wellformedness, and key exposure for the
`loopSpec` list built for an order that is a permutation of the loop
dimensions. -/
lemma buildLoopSpec_wf (bounds : String → Nat) (dims order tileable : List String)
    (ts fti : Nat) (hts : 1 ≤ ts) (hok : dimsOK dims) (hperm : order.Perm dims) :
    (buildLoopSpec bounds order tileable ts fti).Pairwise specSep ∧
    (∀ sp ∈ buildLoopSpec bounds order tileable ts fti, specOK sp) ∧
    (∀ sp ∈ buildLoopSpec bounds order tileable ts fti,
      sp.key ∈ dims ∨ ∃ d ∈ dims, d ∈ tileable ∧ sp.key = "t" ++ d) := by
  have hsub : ∀ d ∈ order, d ∈ dims := fun d hd => hperm.mem_iff.mp hd
  have hordnd : order.Nodup := hperm.nodup_iff.mpr hok.1
  have hsplit : order.take fti ++ order.drop fti = order := List.take_append_drop fti order
  have htd := List.nodup_append.mp (show (order.take fti ++ order.drop fti).Nodup by
    rw [hsplit]; exact hordnd)
  have hsubtake : ∀ d ∈ order.take fti, d ∈ order := fun d hd => by
    rw [← hsplit]; exact List.mem_append_left _ hd
  have hsubdrop : ∀ d ∈ order.drop fti, d ∈ order := fun d hd => by
    rw [← hsplit]; exact List.mem_append_right _ hd
  have hsubfil : ∀ d ∈ order.filter (fun d => decide (d ∈ tileable)), d ∈ order :=
    fun d hd => (List.filter_sublist order).mem hd
  have hfilt : ∀ d ∈ order.filter (fun d => decide (d ∈ tileable)), d ∈ tileable :=
    fun d hd => by simpa using (List.mem_filter.mp hd).2
  have hpack := hok.2
  refine ⟨?_, ?_, ?_⟩
  · rw [buildLoopSpec, List.pairwise_append]
    refine ⟨?_, ?_, ?_⟩
    · rw [List.pairwise_append]
      refine ⟨?_, ?_, ?_⟩
      · -- within phase 1
        rw [List.pairwise_map]
        refine List.Pairwise.imp ?_ htd.1
        intro a b hab
        exact specSep_of _ _ (by simpa [LoopSpec.key] using hab) (by simp [LoopSpec.elemTkey])
      · -- within phase 2
        rw [List.pairwise_map]
        refine List.Pairwise.imp_of_mem ?_
          ((List.filter_sublist order).nodup hordnd)
        intro a b ha hb hab
        refine specSep_of _ _ ?_ (by simp [LoopSpec.elemTkey])
        simp only [LoopSpec.key]
        intro h
        exact hab ((hpack a (hsub a (hsubfil a ha)) b (hsub b (hsubfil b hb))).2.2.1 h)
      · -- phase 1 vs phase 2
        intro x hx y hy
        obtain ⟨a, ha, rfl⟩ := List.mem_map.mp hx
        obtain ⟨b, hb, rfl⟩ := List.mem_map.mp hy
        refine specSep_of _ _ ?_ (by simp [LoopSpec.elemTkey])
        simp only [LoopSpec.key]
        intro h
        exact (hpack a (hsub a (hsubtake a ha)) b (hsub b (hsubfil b hb))).1 h.symm
    · -- within phase 3
      rw [List.pairwise_map]
      refine List.Pairwise.imp_of_mem ?_ htd.2.1
      intro a b ha hb hab
      have hadims := hsub a (hsubdrop a ha)
      have hbdims := hsub b (hsubdrop b hb)
      refine specSep_of _ _ ?_ ?_
      · rw [keyIf, keyIf]; exact hab
      · rw [keyIf]
        by_cases hat : a ∈ tileable
        · simp only [hat, if_true, LoopSpec.elemTkey]
          intro h
          exact (hpack b hbdims a hadims).1 (Option.some.injEq _ _ ▸ h :)
        · simp [hat, LoopSpec.elemTkey]
    · -- phases 1,2 vs phase 3
      intro x hx y hy
      obtain ⟨b, hb, rfl⟩ := List.mem_map.mp hy
      have hbdims := hsub b (hsubdrop b hb)
      rcases List.mem_append.mp hx with h1 | h2
      · obtain ⟨a, ha, rfl⟩ := List.mem_map.mp h1
        refine specSep_of _ _ ?_ (by simp [LoopSpec.elemTkey])
        rw [keyIf]
        simp only [LoopSpec.key]
        intro h
        exact htd.2.2 ha (h ▸ hb)
      · obtain ⟨a, ha, rfl⟩ := List.mem_map.mp h2
        refine specSep_of _ _ ?_ (by simp [LoopSpec.elemTkey])
        rw [keyIf]
        simp only [LoopSpec.key]
        intro h
        exact (hpack b hbdims a (hsub a (hsubfil a ha))).1 h
  · -- specOK
    intro sp hsp
    rw [buildLoopSpec] at hsp
    rcases List.mem_append.mp hsp with h12 | h3
    · rcases List.mem_append.mp h12 with h1 | h2
      · obtain ⟨a, -, rfl⟩ := List.mem_map.mp h1
        trivial
      · obtain ⟨a, -, rfl⟩ := List.mem_map.mp h2
        exact hts
    · obtain ⟨a, ha, rfl⟩ := List.mem_map.mp h3
      have hadims := hsub a (hsubdrop a ha)
      by_cases hat : a ∈ tileable
      · simp only [hat, if_true, specOK]
        intro h
        exact (hpack a hadims a hadims).1 h.symm
      · simp [hat, specOK]
  · -- exposure
    intro sp hsp
    rw [buildLoopSpec] at hsp
    rcases List.mem_append.mp hsp with h12 | h3
    · rcases List.mem_append.mp h12 with h1 | h2
      · obtain ⟨a, ha, rfl⟩ := List.mem_map.mp h1
        exact Or.inl (hsub a (hsubtake a ha))
      · obtain ⟨a, ha, rfl⟩ := List.mem_map.mp h2
        exact Or.inr ⟨a, hsub a (hsubfil a ha), hfilt a ha, rfl⟩
    · obtain ⟨a, ha, rfl⟩ := List.mem_map.mp h3
      rw [keyIf]
      exact Or.inl (hsub a (hsubdrop a ha))

/-- Extension of an index assignment with the tile-origin keys of the given
dimensions (`t…` key of `d` set to the origin of the tile containing `f d`). -/
def addTileKeys (ts : Nat) (f : String → Nat) : List String → (String → Nat)
  | [] => f
  | d :: rest => setIdx (addTileKeys ts f rest) ("t" ++ d) (ts * (f d / ts))

lemma addTileKeys_other (ts : Nat) (f : String → Nat) :
    ∀ (l : List String) (k : String), (∀ d ∈ l, k ≠ "t" ++ d) →
      addTileKeys ts f l k = f k := by
  intro l
  induction l with
  | nil => intro k _; rfl
  | cons a rest ih =>
    intro k hk
    simp only [addTileKeys, setIdx]
    rw [if_neg (hk a (List.mem_cons_self _ _))]
    exact ih k fun d hd => hk d (List.mem_cons_of_mem _ hd)

lemma addTileKeys_tkey (ts : Nat) (f : String → Nat) :
    ∀ (l : List String), (∀ a ∈ l, ∀ b ∈ l, "t" ++ a = "t" ++ b → a = b) →
      ∀ d ∈ l, addTileKeys ts f l ("t" ++ d) = ts * (f d / ts) := by
  intro l
  induction l with
  | nil => intro _ d hd; cases hd
  | cons a rest ih =>
    intro hinj d hd
    simp only [addTileKeys, setIdx]
    by_cases hda : "t" ++ d = "t" ++ a
    · have : d = a := hinj d hd a (List.mem_cons_self _ _) hda
      subst this
      rw [if_pos rfl]
    · rw [if_neg hda]
      have hd' : d ∈ rest := by
        rcases List.mem_cons.mp hd with rfl | hd' <;> [exact absurd rfl hda; exact hd']
      exact ih (fun x hx y hy => hinj x (List.mem_cons_of_mem _ hx) y (List.mem_cons_of_mem _ hy)) d hd'

/-- Master correspondence: projecting the tiled nest onto the loop dimensions
gives a permutation of the non-tiled nest, for any order that is a
permutation of the (key-fresh) loop dimensions and any positive tile size,
provided no tileable dimension occurs before position `fti` (which is how
`firstTiledIdx` is chosen). -/
theorem tiled_perm_master (bounds : String → Nat) (dims order tileable : List String)
    (ts fti : Nat) (hts : 1 ≤ ts) (hok : dimsOK dims) (hperm : order.Perm dims)
    (htake : ∀ d ∈ order.take fti, d ∉ tileable) :
    ((tnest dims tileable (buildLoopSpec bounds order tileable ts fti) fun _ => 0).map
        (projToDims dims)).Perm (nestLoops bounds dims order fun _ => 0) := by
  obtain ⟨hpw, hokk, hexp⟩ := buildLoopSpec_wf bounds dims order tileable ts fti hts hok hperm
  have hsub : ∀ d ∈ order, d ∈ dims := fun d hd => hperm.mem_iff.mp hd
  have hordnd : order.Nodup := hperm.nodup_iff.mpr hok.1
  have hsplit : order.take fti ++ order.drop fti = order := List.take_append_drop fti order
  have hsubtake : ∀ d ∈ order.take fti, d ∈ order := fun d hd => by
    rw [← hsplit]; exact List.mem_append_left _ hd
  have hsubdrop : ∀ d ∈ order.drop fti, d ∈ order := fun d hd => by
    rw [← hsplit]; exact List.mem_append_right _ hd
  have hsubfil : ∀ d ∈ order.filter (fun d => decide (d ∈ tileable)), d ∈ order :=
    fun d hd => (List.filter_sublist order).mem hd
  have hfilt : ∀ d ∈ order.filter (fun d => decide (d ∈ tileable)), d ∈ tileable :=
    fun d hd => by simpa using (List.mem_filter.mp hd).2
  have hpack := hok.2
  have hmemP1 : ∀ d ∈ order.take fti,
      LoopSpec.simple d (bounds d) ∈ buildLoopSpec bounds order tileable ts fti := by
    intro d hd
    rw [buildLoopSpec]
    exact List.mem_append_left _ (List.mem_append_left _ (List.mem_map_of_mem _ hd))
  have hmemP2 : ∀ d ∈ order.filter (fun d => decide (d ∈ tileable)),
      LoopSpec.tile ("t" ++ d) d (bounds d) ts ∈ buildLoopSpec bounds order tileable ts fti := by
    intro d hd
    rw [buildLoopSpec]
    exact List.mem_append_left _ (List.mem_append_right _ (List.mem_map_of_mem _ hd))
  have hmemP3 : ∀ d ∈ order.drop fti,
      (if d ∈ tileable then LoopSpec.element d d (bounds d) ts
       else LoopSpec.simple d (bounds d)) ∈ buildLoopSpec bounds order tileable ts fti := by
    intro d hd
    rw [buildLoopSpec]
    exact List.mem_append_right _ (List.mem_map_of_mem _ hd)
  have hdropOf : ∀ d ∈ order, d ∈ tileable → d ∈ order.drop fti := by
    intro d hd hdt
    rw [← hsplit] at hd
    rcases List.mem_append.mp hd with h | h
    · exact absurd hdt (htake d h)
    · exact h
  have hfilOf : ∀ d ∈ order, d ∈ tileable →
      d ∈ order.filter (fun d => decide (d ∈ tileable)) := by
    intro d hd hdt
    rw [List.mem_filter]
    exact ⟨hd, by simpa using hdt⟩
  have hboundAll : ∀ f : String → Nat,
      (∀ sp ∈ buildLoopSpec bounds order tileable ts fti, cstr f sp) →
      ∀ d ∈ order, f d < bounds d := by
    intro f hc d hd
    rw [← hsplit] at hd
    rcases List.mem_append.mp hd with h | h
    · exact hc _ (hmemP1 d h)
    · have := hc _ (hmemP3 d h)
      by_cases hdt : d ∈ tileable
      · rw [if_pos hdt] at this
        exact this.2.2
      · rw [if_neg hdt] at this
        exact this
  have htdet : ∀ f : String → Nat,
      (∀ sp ∈ buildLoopSpec bounds order tileable ts fti, cstr f sp) →
      ∀ d ∈ order, d ∈ tileable → f ("t" ++ d) = ts * (f d / ts) := by
    intro f hc d hd hdt
    have htile := hc _ (hmemP2 d (hfilOf d hd hdt))
    have helem := hc _ (hmemP3 d (hdropOf d hd hdt))
    rw [if_pos hdt] at helem
    exact tile_origin_unique ts (f d) (f ("t" ++ d)) htile.2 helem.1 helem.2.1
  -- Nodup of the projected tiled list
  have ndFull := tnest_nodup dims tileable (buildLoopSpec bounds order tileable ts fti)
    (fun _ => 0) hpw hokk hexp
  have nd1 : ((tnest dims tileable (buildLoopSpec bounds order tileable ts fti)
      fun _ => 0).map (projToDims dims)).Nodup := by
    refine List.Nodup.map_on ?_ ndFull
    intro x hx y hy hxy
    obtain ⟨f, hfout, hfc, rfl⟩ :=
      (tnest_mem dims tileable _ _ x hpw hokk).mp hx
    obtain ⟨g, hgout, hgc, rfl⟩ :=
      (tnest_mem dims tileable _ _ y hpw hokk).mp hy
    rw [projToDims_leafRec dims tileable hok f,
      projToDims_leafRec dims tileable hok g] at hxy
    have hfg : ∀ d ∈ dims, f d = g d := map_pair_inj dims f g hxy
    refine leafRec_congr tileable f g dims ?_
    intro d hd
    refine ⟨hfg d hd, fun hdt => ?_⟩
    have hdo : d ∈ order := hperm.mem_iff.mpr hd
    rw [htdet f hfc d hdo hdt, htdet g hgc d hdo hdt, hfg d hd]
  have nd2 : (nestLoops bounds dims order fun _ => 0).Nodup :=
    nestLoops_nodup bounds dims order hordnd hsub _
  rw [List.perm_ext_iff_of_nodup nd1 nd2]
  intro a
  constructor
  · intro ha
    obtain ⟨r, hr, rfl⟩ := List.mem_map.mp ha
    obtain ⟨f, hfout, hfc, rfl⟩ := (tnest_mem dims tileable _ _ r hpw hokk).mp hr
    rw [projToDims_leafRec dims tileable hok f]
    rw [nestLoops_mem]
    refine ⟨fun k => if k ∈ order then f k else 0, ?_, ?_, ?_⟩
    · intro k hk; simp [hk]
    · intro d hd
      simp only [hd, if_true]
      exact hboundAll f hfc d hd
    · refine List.map_congr_left fun d hd => ?_
      simp [hperm.mem_iff.mpr hd]
  · intro ha
    obtain ⟨f, hfout, hfb, rfl⟩ := (nestLoops_mem bounds dims order _ _).mp ha
    have hinj : ∀ a ∈ order.filter (fun d => decide (d ∈ tileable)),
        ∀ b ∈ order.filter (fun d => decide (d ∈ tileable)),
        "t" ++ a = "t" ++ b → a = b := by
      intro x hx y hy h
      exact (hpack x (hsub x (hsubfil x hx)) y (hsub y (hsubfil y hy))).2.2.1 h
    have hdimtk : ∀ d ∈ dims, ∀ d' ∈ order.filter (fun d => decide (d ∈ tileable)),
        d ≠ "t" ++ d' := by
      intro d hd d' hd' h
      exact (hpack d hd d' (hsub d' (hsubfil d' hd'))).1 h.symm
    set g := addTileKeys ts f (order.filter fun d => decide (d ∈ tileable)) with hg
    have hgdim : ∀ d ∈ dims, g d = f d := by
      intro d hd
      exact addTileKeys_other ts f _ d (hdimtk d hd)
    have hgt : ∀ d ∈ order, d ∈ tileable → g ("t" ++ d) = ts * (f d / ts) := by
      intro d hd hdt
      exact addTileKeys_tkey ts f _ hinj d (hfilOf d hd hdt)
    have hgc : ∀ sp ∈ buildLoopSpec bounds order tileable ts fti, cstr g sp := by
      intro sp hsp
      rw [buildLoopSpec] at hsp
      rcases List.mem_append.mp hsp with h12 | h3
      · rcases List.mem_append.mp h12 with h1 | h2
        · obtain ⟨d, hd, rfl⟩ := List.mem_map.mp h1
          have : g d = f d := hgdim d (hsub d (hsubtake d hd))
          simp only [cstr, this]
          exact hfb d (hsubtake d hd)
        · obtain ⟨d, hd, rfl⟩ := List.mem_map.mp h2
          have hdo : d ∈ order := hsubfil d hd
          have hdt : d ∈ tileable := hfilt d hd
          have h1 : g ("t" ++ d) = ts * (f d / ts) := hgt d hdo hdt
          simp only [cstr, h1]
          constructor
          · calc ts * (f d / ts) = f d / ts * ts := mul_comm _ _
              _ ≤ f d := Nat.div_mul_le_self _ _
              _ < bounds d := hfb d hdo
          · exact Nat.mul_mod_right ts _
      · obtain ⟨d, hd, rfl⟩ := List.mem_map.mp h3
        have hdo : d ∈ order := hsubdrop d hd
        by_cases hdt : d ∈ tileable
        · rw [if_pos hdt]
          have h1 : g ("t" ++ d) = ts * (f d / ts) := hgt d hdo hdt
          have h2 : g d = f d := hgdim d (hsub d hdo)
          have hdm := Nat.div_add_mod (f d) ts
          have hlt : f d % ts < ts := Nat.mod_lt _ hts
          simp only [cstr, h1, h2]
          refine ⟨by omega, by omega, hfb d hdo⟩
        · rw [if_neg hdt]
          have h2 : g d = f d := hgdim d (hsub d hdo)
          simp only [cstr, h2]
          exact hfb d hdo
    refine List.mem_map.mpr ⟨leafRec dims tileable g, ?_, ?_⟩
    · refine (tnest_mem dims tileable _ _ _ hpw hokk).mpr ⟨g, ?_, hgc, rfl⟩
      intro k hk
      rw [buildLoopSpec_keys] at hk
      have hko : k ∉ order := by
        intro h
        rw [← hsplit] at h
        rcases List.mem_append.mp h with h' | h'
        · exact hk (List.mem_append_left _ (List.mem_append_left _ h'))
        · exact hk (List.mem_append_right _ h')
      have hktk : ∀ d ∈ order.filter (fun d => decide (d ∈ tileable)), k ≠ "t" ++ d := by
        intro d hd h
        exact hk (List.mem_append_left _ (List.mem_append_right _
          (List.mem_map.mpr ⟨d, hd, h.symm⟩)))
      rw [hg, addTileKeys_other ts f _ k hktk, hfout k hko]
    · rw [projToDims_leafRec dims tileable hok g]
      exact List.map_congr_left fun d hd => by rw [hgdim d hd]

lemma findIdx?_take_false {α : Type} (p : α → Bool) :
    ∀ (l : List α) (n : Nat), l.findIdx? p = some n → ∀ x ∈ l.take n, p x = false := by
  intro l
  induction l with
  | nil => intro n h; cases h
  | cons a rest ih =>
    intro n h x hx
    rw [List.findIdx?_cons] at h
    by_cases hpa : p a = true
    · rw [if_pos hpa] at h
      cases h
      cases hx
    · rw [if_neg hpa, List.findIdx?_succ] at h
      cases hfr : rest.findIdx? p with
      | none => rw [hfr] at h; cases h
      | some m =>
        rw [hfr] at h
        have hn : n = m + 1 := by
          simpa using h.symm
        subst hn
        rcases List.mem_cons.mp (by simpa using hx) with rfl | hx'
        · simpa using hpa
        · exact ih m hfr x hx'

/-- Record lookup on a plain (non-tiled) record returns the generating
assignment. -/
lemma getv_plainRec (f : String → Nat) :
    ∀ (dims : List String) (d : String), d ∈ dims →
      getv (dims.map fun x => (x, f x)) d = f d := by
  intro dims
  induction dims with
  | nil => intro d hd; cases hd
  | cons a rest ih =>
    intro d hd
    simp only [List.map_cons, getv]
    by_cases hda : a = d
    · rw [if_pos hda, hda]
    · rw [if_neg hda]
      exact ih d (by rcases List.mem_cons.mp hd with rfl | h <;> [exact absurd rfl hda; exact h])

/-- The C2 contract for one operation, key and tile size: whenever both
generators succeed, the tiled generator returns the same number of records,
and projecting its records onto the loop dimensions yields a permutation
(same multiset) of the non-tiled iteration list. -/
def tiledMatchesPlain (op : Operation) (key : String) (ts : Nat) : Prop :=
  ∀ tits its, generateTiledIterations op key ts = some tits →
    generateIterations op key = some its →
    tits.length = its.length ∧ (tits.map (projToDims op.loopDims)).Perm its

lemma tiledMatchesPlain_of (op : Operation) (key : String) (ts : Nat) (hts : 1 ≤ ts)
    (hok : dimsOK op.loopDims)
    (hords : ∀ order, lookupOrder op.loopOrders key = some order → order.Perm op.loopDims) :
    tiledMatchesPlain op key ts := by
  intro tits its htits hits
  unfold generateTiledIterations at htits
  unfold generateIterations at hits
  cases hord : lookupOrder op.loopOrders key with
  | none => rw [hord] at hits; cases hits
  | some order =>
    simp only [hord, Option.some.injEq] at htits hits
    have hperm := hords order hord
    subst hits
    cases hfti : order.findIdx? (fun d => decide (d ∈ op.tileableDims)) with
    | none =>
      simp only [hfti] at htits
      unfold generateIterations at htits
      simp only [hord, Option.some.injEq] at htits
      subst htits
      refine ⟨rfl, ?_⟩
      have hproj : ∀ r ∈ nestLoops op.loopBounds op.loopDims order fun _ => 0,
          projToDims op.loopDims r = r := by
        intro r hr
        obtain ⟨f, -, -, rfl⟩ := (nestLoops_mem _ _ order _ r).mp hr
        exact List.map_congr_left fun d hd => by rw [getv_plainRec f _ d hd]
      have hmapid : (nestLoops op.loopBounds op.loopDims order fun _ => 0).map
            (projToDims op.loopDims)
          = (nestLoops op.loopBounds op.loopDims order fun _ => 0).map id :=
        List.map_congr_left fun r hr => hproj r hr
      rw [hmapid, List.map_id]
    | some fti =>
      simp only [hfti, Option.some.injEq] at htits
      subst htits
      have htake : ∀ d ∈ order.take fti, d ∉ op.tileableDims := by
        intro d hd hmem
        have := findIdx?_take_false _ order fti hfti d hd
        simp [hmem] at this
      have hp := tiled_perm_master op.loopBounds op.loopDims order op.tileableDims ts fti
        hts hok hperm htake
      refine ⟨?_, hp⟩
      rw [← List.length_map _ (projToDims op.loopDims), hp.length_eq]

/-- C2: for both operations, every defined loop-order key and every positive
tile size (dividing the bounds or not), `generateTiledIterations` returns the
same number of records and — projected onto the loop dimensions — the same
multiset of dimension-value tuples as `generateIterations` (only the order
differs); and for any operation whose chosen order contains no tileable
dimension, it delegates to `generateIterations`, returning the identical
result. -/
theorem generateTiledIterations_equiv (size es : Nat) (cfg : Conv2dConfig) (key : String)
    (ts : Nat) (hts : 1 ≤ ts) :
    tiledMatchesPlain (createMatmulOperation size es) key ts ∧
    tiledMatchesPlain (createConv2dOperation cfg) key ts ∧
    ∀ (op : Operation) (key2 : String) (order : List String),
      lookupOrder op.loopOrders key2 = some order →
      (∀ d ∈ order, d ∉ op.tileableDims) →
      generateTiledIterations op key2 ts = generateIterations op key2 := by
  refine ⟨tiledMatchesPlain_of _ _ _ hts (by rw [matmul_loopDims]; unfold dimsOK; decide)
      (matmul_lookup_perm size es key),
    tiledMatchesPlain_of _ _ _ hts (by rw [conv2d_loopDims]; unfold dimsOK; decide)
      (conv2d_lookup_perm cfg key), ?_⟩
  intro op key2 order hord hnone
  unfold generateTiledIterations
  simp only [hord]
  have hfti : order.findIdx? (fun d => decide (d ∈ op.tileableDims)) = none :=
    List.findIdx?_eq_none_iff.mpr fun d hd => by simp [hnone d hd]
  simp only [hfti]

/-- Witness for C2: for matmul with size 4, order "ijk" and tile size 2 the
tiled generator returns as many records as the non-tiled one (64). -/
theorem generateTiledIterations_equiv_instance :
    ((generateTiledIterations (createMatmulOperation 4 4) "ijk" 2).getD []).length
      = ((generateIterations (createMatmulOperation 4 4) "ijk").getD []).length :=
  ((generateTiledIterations_equiv 4 4 defaultConv2dConfig "ijk" 2 (by decide)).1
    ((generateTiledIterations (createMatmulOperation 4 4) "ijk" 2).getD [])
    ((generateIterations (createMatmulOperation 4 4) "ijk").getD [])
    (by decide) (by decide)).1

/-- The C7 contract for one operation, key and tile size: every produced
record carries, for each tileable dimension, a tile origin that is a multiple
of the tile size and a local offset equal to value − origin, and the
dimension value lies in `[origin, origin + tileSize) ∩ [0, bound)`. -/
def tiledRecordsCarryTileInfo (op : Operation) (key : String) (ts : Nat) : Prop :=
  ∀ tits, generateTiledIterations op key ts = some tits →
    ∀ r ∈ tits, ∀ d ∈ op.loopDims, d ∈ op.tileableDims →
      getv r ("t" ++ d) % ts = 0 ∧
      getv r ("l" ++ d) = getv r d - getv r ("t" ++ d) ∧
      getv r ("t" ++ d) ≤ getv r d ∧
      getv r d < getv r ("t" ++ d) + ts ∧
      getv r d < op.loopBounds d

lemma tiledInfo_of (op : Operation) (key : String) (ts : Nat) (hts : 1 ≤ ts)
    (hok : dimsOK op.loopDims)
    (hords : ∀ order, lookupOrder op.loopOrders key = some order → order.Perm op.loopDims) :
    tiledRecordsCarryTileInfo op key ts := by
  intro tits htits r hr d hd hdt
  unfold generateTiledIterations at htits
  cases hord : lookupOrder op.loopOrders key with
  | none => rw [hord] at htits; cases htits
  | some order =>
    simp only [hord] at htits
    have hperm := hords order hord
    have hdo : d ∈ order := hperm.mem_iff.mpr hd
    cases hfti : order.findIdx? (fun d => decide (d ∈ op.tileableDims)) with
    | none =>
      exfalso
      have := List.findIdx?_eq_none_iff.mp hfti d hdo
      simp [hdt] at this
    | some fti =>
      simp only [hfti, Option.some.injEq] at htits
      subst htits
      obtain ⟨hpw, hokk, hexp⟩ := buildLoopSpec_wf op.loopBounds op.loopDims order
        op.tileableDims ts fti hts hok hperm
      obtain ⟨f, hfout, hfc, rfl⟩ :=
        (tnest_mem op.loopDims op.tileableDims _ _ r hpw hokk).mp hr
      have hsplit : order.take fti ++ order.drop fti = order :=
        List.take_append_drop fti order
      have hdrop : d ∈ order.drop fti := by
        rw [← hsplit] at hdo
        rcases List.mem_append.mp hdo with h | h
        · exfalso
          have := findIdx?_take_false _ order fti hfti d h
          simp [hdt] at this
        · exact h
      have hfil : d ∈ order.filter (fun x => decide (x ∈ op.tileableDims)) :=
        List.mem_filter.mpr ⟨hdo, by simpa using hdt⟩
      have htile := hfc (LoopSpec.tile ("t" ++ d) d (op.loopBounds d) ts) (by
        rw [buildLoopSpec]
        exact List.mem_append_left _ (List.mem_append_right _ (List.mem_map_of_mem _ hfil)))
      have helem : cstr f (LoopSpec.element d d (op.loopBounds d) ts) := by
        have := hfc ((if d ∈ op.tileableDims then
            LoopSpec.element d d (op.loopBounds d) ts
          else LoopSpec.simple d (op.loopBounds d))) (by
          rw [buildLoopSpec]
          exact List.mem_append_right _ (List.mem_map_of_mem _ hdrop))
        rwa [if_pos hdt] at this
      rw [getv_leafRec_dim op.tileableDims f op.loopDims hok d hd,
        getv_leafRec_tkey op.tileableDims f op.loopDims hok d hd hdt,
        getv_leafRec_lkey op.tileableDims f op.loopDims hok d hd hdt]
      exact ⟨htile.2, rfl, helem.1, helem.2.1, helem.2.2⟩

/-- C7: every record of `generateTiledIterations` (both operations, any
defined order, any positive tile size) carries, for each tileable dimension,
a tile origin that is a multiple of the tile size, a local offset equal to
the dimension value minus the origin, and a value within
`[origin, origin + tileSize)` clamped to the dimension bound. -/
theorem generateTiledIterations_tileinfo (size es : Nat) (cfg : Conv2dConfig)
    (key : String) (ts : Nat) (hts : 1 ≤ ts) :
    tiledRecordsCarryTileInfo (createMatmulOperation size es) key ts ∧
    tiledRecordsCarryTileInfo (createConv2dOperation cfg) key ts :=
  ⟨tiledInfo_of _ _ _ hts (by rw [matmul_loopDims]; unfold dimsOK; decide)
      (matmul_lookup_perm size es key),
    tiledInfo_of _ _ _ hts (by rw [conv2d_loopDims]; unfold dimsOK; decide)
      (conv2d_lookup_perm cfg key)⟩

/-- Witness for C7: in the 9th record of the tiled matmul(4) "ijk" run with
tile size 2 (the first record of tile `tk = 2`), dimension "k" has tile
origin 2 (a multiple of 2), local offset 0, and value 2 within the tile and
the bound. -/
theorem generateTiledIterations_tileinfo_instance :
    getv (((generateTiledIterations (createMatmulOperation 4 4) "ijk" 2).getD []).getD 8 [])
        ("t" ++ "k") % 2 = 0 ∧
    getv (((generateTiledIterations (createMatmulOperation 4 4) "ijk" 2).getD []).getD 8 [])
        ("l" ++ "k")
      = getv (((generateTiledIterations (createMatmulOperation 4 4) "ijk" 2).getD []).getD 8 [])
          "k"
        - getv (((generateTiledIterations (createMatmulOperation 4 4) "ijk" 2).getD []).getD 8 [])
            ("t" ++ "k") ∧
    getv (((generateTiledIterations (createMatmulOperation 4 4) "ijk" 2).getD []).getD 8 [])
        ("t" ++ "k")
      ≤ getv (((generateTiledIterations (createMatmulOperation 4 4) "ijk" 2).getD []).getD 8 [])
          "k" ∧
    getv (((generateTiledIterations (createMatmulOperation 4 4) "ijk" 2).getD []).getD 8 [])
        "k"
      < getv (((generateTiledIterations (createMatmulOperation 4 4) "ijk" 2).getD []).getD 8 [])
          ("t" ++ "k") + 2 ∧
    getv (((generateTiledIterations (createMatmulOperation 4 4) "ijk" 2).getD []).getD 8 [])
        "k"
      < (createMatmulOperation 4 4).loopBounds "k" :=
  (generateTiledIterations_tileinfo 4 4 defaultConv2dConfig "ijk" 2 (by decide)).1
    ((generateTiledIterations (createMatmulOperation 4 4) "ijk" 2).getD []) (by decide)
    (((generateTiledIterations (createMatmulOperation 4 4) "ijk" 2).getD []).getD 8 [])
    (by decide) "k" (by decide) (by decide)

/-! ## Tensor base addresses (claim C10) -/

/-- The C10 contract: each tensor's base address is the running sum of the
element counts of all prior tensors times `elementSize`. -/
def baseAddressesRunningSums (op : Operation) : Prop :=
  ∀ i, ∀ h : i < op.tensors.length,
    (op.tensors.get ⟨i, h⟩).baseAddress
      = (((op.tensors.take i).map fun t => t.getTotalElements).sum) * op.elementSize

/-- C10: for every matmul size and conv2d configuration, tensor base
addresses are running sums of prior tensors' element counts times
`elementSize` (so address ranges never overlap); and matmul with size 12 and
elementSize 4 has base addresses 0, 576, 1152 and 1728 total iterations. -/
theorem tensor_base_addresses (size es : Nat) (cfg : Conv2dConfig) :
    baseAddressesRunningSums (createMatmulOperation size es) ∧
    baseAddressesRunningSums (createConv2dOperation cfg) ∧
    ((createMatmulOperation 12 4).tensors.map fun t => t.baseAddress) = [0, 576, 1152] ∧
    (createMatmulOperation 12 4).getTotalIterations = 1728 := by
  refine ⟨?_, ?_, by decide, by decide⟩
  · intro i h
    have h3 : i < 3 := h
    interval_cases i
    · show (0 : Nat) = List.sum [] * es
      simp
    · show size * size * es = (size * size + 0) * es
      ring
    · show 2 * (size * size) * es = (size * size + (size * size + 0)) * es
      ring
  · intro i h
    have h3 : i < 3 := h
    interval_cases i
    · show (0 : Nat) = List.sum [] * cfg.elementSize
      simp
    · show cfg.inputH * cfg.inputW * cfg.channels_in * cfg.elementSize
          = (cfg.inputH * cfg.inputW * cfg.channels_in + 0) * cfg.elementSize
      ring
    · show (cfg.inputH * cfg.inputW * cfg.channels_in
            + cfg.kernelH * cfg.kernelW * cfg.channels_in * cfg.channels_out)
            * cfg.elementSize
        = (cfg.inputH * cfg.inputW * cfg.channels_in
            + (cfg.kernelH * cfg.kernelW * cfg.channels_in * cfg.channels_out + 0))
            * cfg.elementSize
      ring

/-- Witness for C10: tensor B of matmul(12, 4) sits at the running sum of
prior element counts times the element size (144·4 = 576). -/
theorem tensor_base_addresses_instance :
    ((createMatmulOperation 12 4).tensors.get ⟨1, by decide⟩).baseAddress
      = (((createMatmulOperation 12 4).tensors.take 1).map fun t => t.getTotalElements).sum
          * (createMatmulOperation 12 4).elementSize :=
  (tensor_base_addresses 12 4 defaultConv2dConfig).1 1 (by decide)

/-! ## Layout linearisation arithmetic (claim C4) -/

lemma lin2_div (row col n : Nat) (h : col < n) : (row * n + col) / n = row := by
  have hn : 0 < n := lt_of_le_of_lt (Nat.zero_le col) h
  rw [mul_comm row n, Nat.mul_add_div hn, Nat.div_eq_of_lt h, Nat.add_zero]

lemma lin2_mod (row col n : Nat) (h : col < n) : (row * n + col) % n = col := by
  rw [mul_comm row n, Nat.mul_add_mod, Nat.mod_eq_of_lt h]

lemma lin_lt (row col m n : Nat) (hr : row < m) (hc : col < n) : row * n + col < m * n := by
  calc row * n + col < row * n + n := by omega
    _ = (row + 1) * n := by ring
    _ ≤ m * n := Nat.mul_le_mul_right n (by omega)

lemma div_mod_recompose (x n : Nat) : x / n * n + x % n = x := by
  rw [mul_comm]; exact Nat.div_add_mod x n

/-- Recomposition of the generic two-level delinearisation
`(x / (A·B), (x mod (A·B)) / B, x mod B)` used by the CHW/HWC layouts. -/
lemma split3_recompose (li A B : Nat) :
    li / (A * B) * (A * B) + (li % (A * B) / B * B + li % B) = li := by
  have hdvd : B ∣ A * B := Dvd.intro A (mul_comm B A ▸ rfl)
  rw [show li % B = li % (A * B) % B from (Nat.mod_mod_of_dvd li hdvd).symm,
    div_mod_recompose (li % (A * B)) B, div_mod_recompose li (A * B)]

/-- Recomposition of the generic three-level delinearisation used by the
OIHW/HWIO layouts (the innermost remainder is taken from `remainder2`). -/
lemma split4_recompose (li M N W : Nat) :
    li / M * M + (li % M / N * N + (li % M % N / W * W + li % M % N % W)) = li := by
  rw [div_mod_recompose (li % M % N) W, div_mod_recompose (li % M) N,
    div_mod_recompose li M]

/-- The C4 contract for one operation: for every tensor and every layout
string, `getCoordinatesFromLinear` is the exact inverse of the tensor's
linearisation — linearising the coordinates returned for a linear index
reproduces that index (via an iteration that hits those coordinates), and
delinearising the linear index of any in-bounds iteration reproduces that
iteration's tensor coordinates. -/
def inverseOn (op : Operation) : Prop :=
  ∀ t ∈ op.tensors, ∀ layout : String,
    (∀ li, li < t.getTotalElements →
      ∃ iter : Rec, t.getIndices iter = t.getCoordinatesFromLinear li layout ∧
        t.getLinearIndex iter layout = li) ∧
    (∀ iter : Rec, (∀ d ∈ op.loopDims, getv iter d < op.loopBounds d) →
      t.getCoordinatesFromLinear (t.getLinearIndex iter layout) layout = t.getIndices iter)

lemma inverseOn_matmul (size es : Nat) : inverseOn (createMatmulOperation size es) := by
  intro t ht layout
  have hbounds : ∀ iter : Rec,
      (∀ d ∈ (createMatmulOperation size es).loopDims,
        getv iter d < (createMatmulOperation size es).loopBounds d) →
      getv iter "i" < size ∧ getv iter "j" < size ∧ getv iter "k" < size := by
    intro iter h
    refine ⟨?_, ?_, ?_⟩ <;>
      simpa [createMatmulOperation] using h _ (by simp [createMatmulOperation])
  simp only [createMatmulOperation, List.mem_cons, List.mem_singleton,
    List.not_mem_nil, or_false] at ht
  rcases ht with rfl | rfl | rfl
  · refine ⟨fun li _ => ?_, fun iter hb => ?_⟩
    · by_cases hl : layout = "col"
      · exact ⟨[("i", li % size), ("k", li / size)],
          by simp [hl, getv], by simp [hl, getv, div_mod_recompose]⟩
      · exact ⟨[("i", li / size), ("k", li % size)],
          by simp [hl, getv], by simp [hl, getv, div_mod_recompose]⟩
    · obtain ⟨h1, h2, h3⟩ := hbounds iter (by simpa [createMatmulOperation] using hb)
      by_cases hl : layout = "col" <;>
        simp [hl, lin2_div _ _ _ h1, lin2_mod _ _ _ h1, lin2_div _ _ _ h3,
          lin2_mod _ _ _ h3]
  · refine ⟨fun li _ => ?_, fun iter hb => ?_⟩
    · by_cases hl : layout = "col"
      · exact ⟨[("j", li / size), ("k", li % size)],
          by simp [hl, getv], by simp [hl, getv, div_mod_recompose]⟩
      · exact ⟨[("j", li % size), ("k", li / size)],
          by simp [hl, getv], by simp [hl, getv, div_mod_recompose]⟩
    · obtain ⟨h1, h2, h3⟩ := hbounds iter (by simpa [createMatmulOperation] using hb)
      by_cases hl : layout = "col" <;>
        simp [hl, lin2_div _ _ _ h2, lin2_mod _ _ _ h2, lin2_div _ _ _ h3,
          lin2_mod _ _ _ h3]
  · refine ⟨fun li _ => ?_, fun iter hb => ?_⟩
    · by_cases hl : layout = "col"
      · exact ⟨[("i", li % size), ("j", li / size)],
          by simp [hl, getv], by simp [hl, getv, div_mod_recompose]⟩
      · exact ⟨[("i", li / size), ("j", li % size)],
          by simp [hl, getv], by simp [hl, getv, div_mod_recompose]⟩
    · obtain ⟨h1, h2, h3⟩ := hbounds iter (by simpa [createMatmulOperation] using hb)
      by_cases hl : layout = "col" <;>
        simp [hl, lin2_div _ _ _ h1, lin2_mod _ _ _ h1, lin2_div _ _ _ h2,
          lin2_mod _ _ _ h2]

lemma chw_coords (c h w H W : Nat) (hh : h < H) (hw : w < W) :
    (c * (H * W) + h * W + w) / (H * W) = c ∧
    (c * (H * W) + h * W + w) % (H * W) / W = h ∧
    (c * (H * W) + h * W + w) % W = w := by
  have h1 : h * W + w < H * W := lin_lt h w H W hh hw
  refine ⟨?_, ?_, ?_⟩
  · rw [add_assoc]; exact lin2_div _ _ _ h1
  · rw [add_assoc, lin2_mod _ _ _ h1]; exact lin2_div _ _ _ hw
  · rw [show c * (H * W) + h * W + w = (c * H + h) * W + w from by ring]
    exact lin2_mod _ _ _ hw

lemma oihw_coords (o i h w I H W : Nat) (hi : i < I) (hh : h < H) (hw : w < W) :
    (o * (I * H * W) + i * (H * W) + h * W + w) / (I * H * W) = o ∧
    (o * (I * H * W) + i * (H * W) + h * W + w) % (I * H * W) / (H * W) = i ∧
    (o * (I * H * W) + i * (H * W) + h * W + w) % (I * H * W) % (H * W) / W = h ∧
    (o * (I * H * W) + i * (H * W) + h * W + w) % (I * H * W) % (H * W) % W = w ∧
    (o * (I * H * W) + i * (H * W) + h * W + w) % W = w := by
  have h2 : h * W + w < H * W := lin_lt h w H W hh hw
  have h1 : i * (H * W) + (h * W + w) < I * H * W := by
    calc i * (H * W) + (h * W + w) < I * (H * W) := lin_lt i _ I (H * W) hi h2
      _ = I * H * W := by ring
  have e0 : o * (I * H * W) + i * (H * W) + h * W + w
      = o * (I * H * W) + (i * (H * W) + (h * W + w)) := by ring
  have cm : (o * (I * H * W) + i * (H * W) + h * W + w) % (I * H * W)
      = i * (H * W) + (h * W + w) := by rw [e0]; exact lin2_mod _ _ _ h1
  have cm2 : (o * (I * H * W) + i * (H * W) + h * W + w) % (I * H * W) % (H * W)
      = h * W + w := by rw [cm]; exact lin2_mod _ _ _ h2
  refine ⟨?_, ?_, ?_, ?_, ?_⟩
  · rw [e0]; exact lin2_div _ _ _ h1
  · rw [cm]; exact lin2_div _ _ _ h2
  · rw [cm2]; exact lin2_div _ _ _ hw
  · rw [cm2]; exact lin2_mod _ _ _ hw
  · rw [show o * (I * H * W) + i * (H * W) + h * W + w
        = (o * (I * H) + i * H + h) * W + w from by ring]
    exact lin2_mod _ _ _ hw

lemma split4_recompose2 (li M N W : Nat) (hWN : W ∣ N) (hWM : W ∣ M) :
    li / M * M + (li % M / N * N + (li % M % N / W * W + li % W)) = li := by
  have hmods : li % M % N % W = li % W := by
    rw [Nat.mod_mod_of_dvd _ hWN, Nat.mod_mod_of_dvd _ hWM]
  rw [← hmods]
  exact split4_recompose li M N W

lemma inverseOn_conv2d (cfg : Conv2dConfig) (hH : cfg.kernelH ≤ cfg.inputH)
    (hW : cfg.kernelW ≤ cfg.inputW) : inverseOn (createConv2dOperation cfg) := by
  intro t ht layout
  have hbounds : ∀ iter : Rec,
      (∀ d ∈ (createConv2dOperation cfg).loopDims,
        getv iter d < (createConv2dOperation cfg).loopBounds d) →
      getv iter "c_out" < cfg.channels_out ∧
      getv iter "h_out" < cfg.inputH - cfg.kernelH + 1 ∧
      getv iter "w_out" < cfg.inputW - cfg.kernelW + 1 ∧
      getv iter "c_in" < cfg.channels_in ∧
      getv iter "k_h" < cfg.kernelH ∧
      getv iter "k_w" < cfg.kernelW := by
    intro iter h
    refine ⟨?_, ?_, ?_, ?_, ?_, ?_⟩ <;>
      simpa [createConv2dOperation] using h _ (by simp [createConv2dOperation])
  simp only [createConv2dOperation, List.mem_cons, List.mem_singleton,
    List.not_mem_nil, or_false] at ht
  rcases ht with rfl | rfl | rfl
  · -- Input tensor (3D, CHW / HWC)
    refine ⟨fun li _ => ?_, fun iter hb => ?_⟩
    · by_cases hl : layout = "HWC"
      · refine ⟨[("c_in", li % cfg.channels_in),
          ("h_out", li / (cfg.inputW * cfg.channels_in)), ("k_h", 0),
          ("w_out", li % (cfg.inputW * cfg.channels_in) / cfg.channels_in), ("k_w", 0)],
          by simp [hl, getv], ?_⟩
        simp [hl, getv, add_assoc, split3_recompose li cfg.inputW cfg.channels_in]
      · refine ⟨[("c_in", li / (cfg.inputH * cfg.inputW)),
          ("h_out", li % (cfg.inputH * cfg.inputW) / cfg.inputW), ("k_h", 0),
          ("w_out", li % cfg.inputW), ("k_w", 0)],
          by simp [hl, getv], ?_⟩
        simp [hl, getv, add_assoc, split3_recompose li cfg.inputH cfg.inputW]
    · obtain ⟨h1, h2, h3, h4, h5, h6⟩ := hbounds iter
        (by simpa [createConv2dOperation] using hb)
      have hrow : getv iter "h_out" + getv iter "k_h" < cfg.inputH := by omega
      have hcol : getv iter "w_out" + getv iter "k_w" < cfg.inputW := by omega
      by_cases hl : layout = "HWC"
      · obtain ⟨d1, d2, d3⟩ := chw_coords (getv iter "h_out" + getv iter "k_h")
          (getv iter "w_out" + getv iter "k_w") (getv iter "c_in")
          cfg.inputW cfg.channels_in hcol h4
        simp [hl, d1, d2, d3]
      · obtain ⟨d1, d2, d3⟩ := chw_coords (getv iter "c_in")
          (getv iter "h_out" + getv iter "k_h") (getv iter "w_out" + getv iter "k_w")
          cfg.inputH cfg.inputW hrow hcol
        simp [hl, d1, d2, d3]
  · -- Kernel tensor (4D, OIHW / HWIO)
    refine ⟨fun li _ => ?_, fun iter hb => ?_⟩
    · by_cases hl : layout = "HWIO"
      · refine ⟨[("c_out",
            li % (cfg.kernelW * cfg.channels_in * cfg.channels_out)
              % (cfg.channels_in * cfg.channels_out) % cfg.channels_out),
          ("c_in",
            li % (cfg.kernelW * cfg.channels_in * cfg.channels_out)
              % (cfg.channels_in * cfg.channels_out) / cfg.channels_out),
          ("k_h", li / (cfg.kernelW * cfg.channels_in * cfg.channels_out)),
          ("k_w",
            li % (cfg.kernelW * cfg.channels_in * cfg.channels_out)
              / (cfg.channels_in * cfg.channels_out))],
          by simp [hl, getv], ?_⟩
        simp [hl, getv, add_assoc]
        exact split4_recompose2 li (cfg.kernelW * cfg.channels_in * cfg.channels_out)
          (cfg.channels_in * cfg.channels_out) cfg.channels_out
          (dvd_mul_left _ _) (dvd_mul_left _ _)
      · refine ⟨[("c_out", li / (cfg.channels_in * cfg.kernelH * cfg.kernelW)),
          ("c_in",
            li % (cfg.channels_in * cfg.kernelH * cfg.kernelW)
              / (cfg.kernelH * cfg.kernelW)),
          ("k_h",
            li % (cfg.channels_in * cfg.kernelH * cfg.kernelW)
              % (cfg.kernelH * cfg.kernelW) / cfg.kernelW),
          ("k_w",
            li % (cfg.channels_in * cfg.kernelH * cfg.kernelW)
              % (cfg.kernelH * cfg.kernelW) % cfg.kernelW)],
          by simp [hl, getv], ?_⟩
        simp [hl, getv, add_assoc]
        exact split4_recompose2 li (cfg.channels_in * cfg.kernelH * cfg.kernelW)
          (cfg.kernelH * cfg.kernelW) cfg.kernelW
          (dvd_mul_left _ _) (dvd_mul_left _ _)
    · obtain ⟨h1, h2, h3, h4, h5, h6⟩ := hbounds iter
        (by simpa [createConv2dOperation] using hb)
      by_cases hl : layout = "HWIO"
      · obtain ⟨d1, d2, d3, d4, d5⟩ := oihw_coords (getv iter "k_h") (getv iter "k_w")
          (getv iter "c_in") (getv iter "c_out")
          cfg.kernelW cfg.channels_in cfg.channels_out h6 h4 h1
        simp [hl, d1, d2, d3, d4, d5]
      · obtain ⟨d1, d2, d3, d4, d5⟩ := oihw_coords (getv iter "c_out") (getv iter "c_in")
          (getv iter "k_h") (getv iter "k_w")
          cfg.channels_in cfg.kernelH cfg.kernelW h4 h5 h6
        simp [hl, d1, d2, d3, d4, d5]
  · -- Output tensor (3D, CHW / HWC)
    refine ⟨fun li _ => ?_, fun iter hb => ?_⟩
    · by_cases hl : layout = "HWC"
      · refine ⟨[("c_out", li % cfg.channels_out),
          ("h_out", li / ((cfg.inputW - cfg.kernelW + 1) * cfg.channels_out)),
          ("w_out",
            li % ((cfg.inputW - cfg.kernelW + 1) * cfg.channels_out) / cfg.channels_out)],
          by simp [hl, getv], ?_⟩
        simp [hl, getv, add_assoc,
          split3_recompose li (cfg.inputW - cfg.kernelW + 1) cfg.channels_out]
      · refine ⟨[("c_out", li / ((cfg.inputH - cfg.kernelH + 1) * (cfg.inputW - cfg.kernelW + 1))),
          ("h_out",
            li % ((cfg.inputH - cfg.kernelH + 1) * (cfg.inputW - cfg.kernelW + 1))
              / (cfg.inputW - cfg.kernelW + 1)),
          ("w_out", li % (cfg.inputW - cfg.kernelW + 1))],
          by simp [hl, getv], ?_⟩
        simp [hl, getv, add_assoc,
          split3_recompose li (cfg.inputH - cfg.kernelH + 1) (cfg.inputW - cfg.kernelW + 1)]
    · obtain ⟨h1, h2, h3, h4, h5, h6⟩ := hbounds iter
        (by simpa [createConv2dOperation] using hb)
      by_cases hl : layout = "HWC"
      · obtain ⟨d1, d2, d3⟩ := chw_coords (getv iter "h_out") (getv iter "w_out")
          (getv iter "c_out") (cfg.inputW - cfg.kernelW + 1) cfg.channels_out h3 h1
        simp [hl, d1, d2, d3]
      · obtain ⟨d1, d2, d3⟩ := chw_coords (getv iter "c_out") (getv iter "h_out")
          (getv iter "w_out") (cfg.inputH - cfg.kernelH + 1) (cfg.inputW - cfg.kernelW + 1)
          h2 h3
        simp [hl, d1, d2, d3]

/-- C4: for every tensor of the matmul and conv2d operations (the latter with
a valid configuration, kernel not larger than input) and every layout,
`getCoordinatesFromLinear` is the exact inverse of `getLinearIndex`:
linearising the coordinates returned for any linear index below
`getTotalElements()` reproduces that index, and delinearising the linear
index of any in-bounds iteration reproduces the iteration's tensor
coordinates. -/
theorem getCoordinatesFromLinear_inverse (size es : Nat) (cfg : Conv2dConfig)
    (hH : cfg.kernelH ≤ cfg.inputH) (hW : cfg.kernelW ≤ cfg.inputW) :
    inverseOn (createMatmulOperation size es) ∧ inverseOn (createConv2dOperation cfg) :=
  ⟨inverseOn_matmul size es, inverseOn_conv2d cfg hH hW⟩

/-- Witness for C4: for tensor A of matmul(12, 4) under the row layout,
delinearising the linear index of the iteration `i=3, j=5, k=7` returns that
iteration's coordinates. -/
theorem getCoordinatesFromLinear_inverse_instance :
    ((createMatmulOperation 12 4).tensors.get
        ⟨0, by decide⟩).getCoordinatesFromLinear
      (((createMatmulOperation 12 4).tensors.get ⟨0, by decide⟩).getLinearIndex
        [("i", 3), ("j", 5), ("k", 7)] "row") "row"
      = ((createMatmulOperation 12 4).tensors.get ⟨0, by decide⟩).getIndices
          [("i", 3), ("j", 5), ("k", 7)] :=
  ((getCoordinatesFromLinear_inverse 12 4 defaultConv2dConfig (by decide) (by decide)).1
    ((createMatmulOperation 12 4).tensors.get ⟨0, by decide⟩)
    (List.get_mem _ _ _) "row").2 [("i", 3), ("j", 5), ("k", 7)] (by decide)

/-! ## Step engine (`src/unnamed/part_005`, handlers module) -/

/-- Per-tensor statistics entry (`{ accesses, hits }`). -/
structure Stats where
  accesses : Nat
  hits : Nat
deriving DecidableEq, Repr

/-- `getAccessAddress(tensor, iter, layouts, elementSize)`; every tensor of
both operations defines `getLinearIndex`, so the layout-aware branch of the
JS function is always the one taken. -/
def getAccessAddress (tensor : Tensor) (iter : Rec) (layouts : String → String)
    (elementSize : Nat) : Nat :=
  tensor.baseAddress + tensor.getLinearIndex iter (layouts tensor.name) * elementSize

/-- The snapshot pushed by `stepForward`/`animate`: cache snapshot, a value
copy of the per-tensor stats, the history length and the cursor. -/
structure EngineSnapshot where
  cache : CacheSnapshot
  stats : List (String × Stats)
  historyLength : Nat
  iteration : Nat
deriving DecidableEq, Repr

/-- The mutable simulation state owned by the handlers module: the generated
iteration list, the cursor, the cache, per-tensor stats, the per-step
hit/miss history, and the undo stack (`snapshots`). -/
structure EngineState where
  iterations : List Rec
  currentIteration : Nat
  cache : CacheState
  stats : List (String × Stats)
  history : List (List (String × Bool))
  snapshots : List EngineSnapshot
deriving DecidableEq, Repr

/-- `state.stats[name].accesses++; state.stats[name].hits += hit` on the
stats object. -/
def updateStat (stats : List (String × Stats)) (name : String) (hit : Bool) :
    List (String × Stats) :=
  stats.map fun p =>
    if p.1 = name then (p.1, ⟨p.2.accesses + 1, p.2.hits + (if hit then 1 else 0)⟩) else p

/-- `executeStep()`: a no-op when the cursor is at the end; otherwise access
every tensor's address in declared order, update its stats, append the
per-tensor hit/miss map to the history and advance the cursor.  (The per-step
result object the JS function returns is the history entry appended here.) -/
def executeStep (op : Operation) (layouts : String → String) (s : EngineState) :
    EngineState :=
  if s.currentIteration < s.iterations.length then
    let iter := s.iterations.getD s.currentIteration []
    let step := op.tensors.foldl
      (fun (acc : CacheState × List (String × Stats) × List (String × Bool)) t =>
        let address := getAccessAddress t iter layouts op.elementSize
        let r := acc.1.access address
        (r.2, updateStat acc.2.1 t.name r.1, acc.2.2 ++ [(t.name, r.1)]))
      (s.cache, s.stats, [])
    { s with cache := step.1
             stats := step.2.1
             history := s.history ++ [step.2.2]
             currentIteration := s.currentIteration + 1 }
  else s

/-- The snapshot value pushed by `stepForward`/`animate`. -/
def mkSnapshot (s : EngineState) : EngineSnapshot :=
  { cache := s.cache.snapshot
    stats := s.stats
    historyLength := s.history.length
    iteration := s.currentIteration }

/-- `resetSimulation()`: cursor to 0, history and undo stack cleared, stats
zeroed for every tensor, cache reset. -/
def resetSimulation (op : Operation) (s : EngineState) : EngineState :=
  { s with currentIteration := 0
           history := []
           snapshots := []
           stats := op.tensors.map fun t => (t.name, ⟨0, 0⟩)
           cache := s.cache.reset }

/-- `n` successive `executeStep()` calls. -/
def advanceN (op : Operation) (layouts : String → String) :
    Nat → EngineState → EngineState
  | 0, s => s
  | n + 1, s => advanceN op layouts n (executeStep op layouts s)

/-- `jumpToIteration(targetIteration)`: clamp the target into
`[0, iterations.length]`, perform a full reset when the target is before the
cursor, then `executeStep()` until the cursor reaches the target.  The JS
while-loop runs exactly `target − cursor` times: each `executeStep` advances
the cursor by one while it is below `target ≤ iterations.length`. -/
def jumpToIteration (op : Operation) (layouts : String → String) (s : EngineState)
    (targetIteration : Int) : EngineState :=
  let target : Nat := (max 0 (min targetIteration (s.iterations.length : Int))).toNat
  let s1 := if target < s.currentIteration then resetSimulation op s else s
  advanceN op layouts (target - s1.currentIteration) s1

/-- `stepForward()`: when the cursor is before the end, push a snapshot onto
the undo stack and execute one step. -/
def stepForward (op : Operation) (layouts : String → String) (s : EngineState) :
    EngineState :=
  if s.currentIteration < s.iterations.length then
    executeStep op layouts { s with snapshots := s.snapshots ++ [mkSnapshot s] }
  else s

/-- One animation frame while playing (the due-frame branch of `animate`):
when the undo stack holds more than 100 entries keep only the most recent 50
(`snapshots.slice(-50)`), then push a snapshot and execute one step. -/
def animateTick (op : Operation) (layouts : String → String) (s : EngineState) :
    EngineState :=
  if s.currentIteration < s.iterations.length then
    let snaps := if s.snapshots.length > 100
      then s.snapshots.drop (s.snapshots.length - 50) else s.snapshots
    executeStep op layouts { s with snapshots := snaps ++ [mkSnapshot s] }
  else s

/-- `n` successive `stepForward()` calls. -/
def stepForwardN (op : Operation) (layouts : String → String) :
    Nat → EngineState → EngineState
  | 0, s => s
  | n + 1, s => stepForwardN op layouts n (stepForward op layouts s)

/-- `n` successive animation frames. -/
def animateTickN (op : Operation) (layouts : String → String) :
    Nat → EngineState → EngineState
  | 0, s => s
  | n + 1, s => animateTickN op layouts n (animateTick op layouts s)

/-- The engine state produced by `applyConfiguration` + `createTensorState`:
fresh cache, zeroed stats, generated iteration list, empty history and undo
stack. -/
def initEngine (op : Operation) (loopOrder : String)
    (cacheCapacity cacheLineSize : Nat) : EngineState :=
  { iterations := (generateIterations op loopOrder).getD []
    currentIteration := 0
    cache := CacheSimulator.new cacheCapacity cacheLineSize
    stats := op.tensors.map fun t => (t.name, ⟨0, 0⟩)
    history := []
    snapshots := [] }

/-- The observable part of the engine state the replay claims speak about:
cursor, per-tensor stats, history, and cache (the undo stack excluded). -/
def obs (s : EngineState) :
    Nat × List (String × Stats) × List (List (String × Bool)) × CacheState :=
  (s.currentIteration, s.stats, s.history, s.cache)

lemma executeStep_iterations (op : Operation) (layouts : String → String)
    (s : EngineState) : (executeStep op layouts s).iterations = s.iterations := by
  unfold executeStep
  split <;> rfl

lemma executeStep_snapshots (op : Operation) (layouts : String → String)
    (s : EngineState) : (executeStep op layouts s).snapshots = s.snapshots := by
  unfold executeStep
  split <;> rfl

lemma executeStep_obs_congr (op : Operation) (layouts : String → String)
    (s s' : EngineState) (hit : s.iterations = s'.iterations) (h : obs s = obs s') :
    obs (executeStep op layouts s) = obs (executeStep op layouts s') := by
  simp only [obs, Prod.mk.injEq] at h
  obtain ⟨h1, h2, h3, h4⟩ := h
  unfold executeStep
  rw [hit, h1, h2, h3, h4]
  split <;> simp [obs, h1, h2, h3, h4]

lemma advanceN_iterations (op : Operation) (layouts : String → String) :
    ∀ (n : Nat) (s : EngineState), (advanceN op layouts n s).iterations = s.iterations := by
  intro n
  induction n with
  | zero => intro s; rfl
  | succ n ih =>
    intro s
    rw [advanceN, ih, executeStep_iterations]

lemma advanceN_obs_congr (op : Operation) (layouts : String → String) :
    ∀ (n : Nat) (s s' : EngineState), s.iterations = s'.iterations → obs s = obs s' →
      obs (advanceN op layouts n s) = obs (advanceN op layouts n s') := by
  intro n
  induction n with
  | zero => intro s s' _ h; exact h
  | succ n ih =>
    intro s s' hit h
    rw [advanceN, advanceN]
    exact ih _ _ (by rw [executeStep_iterations, executeStep_iterations, hit])
      (executeStep_obs_congr op layouts s s' hit h)

lemma advanceN_add (op : Operation) (layouts : String → String) :
    ∀ (m k : Nat) (s : EngineState),
      advanceN op layouts (m + k) s = advanceN op layouts k (advanceN op layouts m s) := by
  intro m
  induction m with
  | zero => intro k s; rw [Nat.zero_add]; rfl
  | succ m ih =>
    intro k s
    rw [show m + 1 + k = (m + k) + 1 from by omega, advanceN, advanceN, ih]

/-- C8: `jumpToIteration(target)` clamps the target into
`[0, iterations.length]` (wild targets never fail, they are clamped), and the
resulting cursor, per-tensor stats, history and cache state are exactly those
obtained by executing the clamped number of steps from a freshly reset
engine — provided the starting state itself agrees (on those components) with
the replay of its own cursor, as every reachable engine state does. -/
theorem jumpToIteration_replay (op : Operation) (layouts : String → String)
    (s : EngineState) (target : Int)
    (hcoh : obs s = obs (advanceN op layouts s.currentIteration (resetSimulation op s))) :
    (max 0 (min target (s.iterations.length : Int))).toNat ≤ s.iterations.length ∧
    obs (jumpToIteration op layouts s target)
      = obs (advanceN op layouts (max 0 (min target (s.iterations.length : Int))).toNat
          (resetSimulation op s)) := by
  constructor
  · omega
  · unfold jumpToIteration
    by_cases hlt : (max 0 (min target (s.iterations.length : Int))).toNat
        < s.currentIteration
    · simp only [hlt, if_true]
      rfl
    · simp only [hlt, if_false]
      have hsplit : (max 0 (min target (s.iterations.length : Int))).toNat
          = s.currentIteration
            + ((max 0 (min target (s.iterations.length : Int))).toNat
                - s.currentIteration) := by omega
      conv_rhs => rw [hsplit, advanceN_add]
      exact advanceN_obs_congr op layouts _ s _
        (by rw [advanceN_iterations]; rfl) hcoh

/-- Witness for C8: jumping the freshly configured matmul(2, 4) engine to the
out-of-range target 100 clamps to the iteration count (8) and lands in the
state reached by replaying 8 steps from a reset engine. -/
theorem jumpToIteration_replay_instance :
    (max 0 (min (100 : Int)
        ((initEngine (createMatmulOperation 2 4) "ijk" 64 16).iterations.length : Int))).toNat
      ≤ (initEngine (createMatmulOperation 2 4) "ijk" 64 16).iterations.length ∧
    obs (jumpToIteration (createMatmulOperation 2 4) (fun _ => "row")
        (initEngine (createMatmulOperation 2 4) "ijk" 64 16) 100)
      = obs (advanceN (createMatmulOperation 2 4) (fun _ => "row")
          (max 0 (min (100 : Int)
            ((initEngine (createMatmulOperation 2 4) "ijk" 64 16).iterations.length : Int))).toNat
          (resetSimulation (createMatmulOperation 2 4)
            (initEngine (createMatmulOperation 2 4) "ijk" 64 16))) :=
  jumpToIteration_replay (createMatmulOperation 2 4) (fun _ => "row")
    (initEngine (createMatmulOperation 2 4) "ijk" 64 16) 100 (by decide)

lemma stepForward_snapshots_push (op : Operation) (layouts : String → String)
    (s : EngineState) (h : s.currentIteration < s.iterations.length) :
    (stepForward op layouts s).snapshots = s.snapshots ++ [mkSnapshot s] := by
  unfold stepForward
  rw [if_pos h, executeStep_snapshots]

lemma stepForward_cursor (op : Operation) (layouts : String → String)
    (s : EngineState) (h : s.currentIteration < s.iterations.length) :
    (stepForward op layouts s).currentIteration = s.currentIteration + 1 := by
  unfold stepForward
  rw [if_pos h]
  unfold executeStep
  rw [if_pos (show ({ s with snapshots := s.snapshots ++ [mkSnapshot s] } :
    EngineState).currentIteration < _ from h)]

lemma stepForward_iterations (op : Operation) (layouts : String → String)
    (s : EngineState) : (stepForward op layouts s).iterations = s.iterations := by
  unfold stepForward
  split
  · rw [executeStep_iterations]
  · rfl

lemma stepForwardN_snapshots_length (op : Operation) (layouts : String → String) :
    ∀ (n : Nat) (s : EngineState),
      (stepForwardN op layouts n s).snapshots.length
        = s.snapshots.length + min n (s.iterations.length - s.currentIteration) := by
  intro n
  induction n with
  | zero => intro s; simp [stepForwardN]
  | succ n ih =>
    intro s
    rw [stepForwardN, ih]
    by_cases h : s.currentIteration < s.iterations.length
    · rw [stepForward_iterations, stepForward_cursor op layouts s h,
        stepForward_snapshots_push op layouts s h]
      simp only [List.length_append, List.length_cons, List.length_nil]
      omega
    · unfold stepForward
      rw [if_neg h]
      omega

lemma executeStep_snapshots_preserved (op : Operation) (layouts : String → String)
    (s : EngineState) : (executeStep op layouts s).snapshots.length = s.snapshots.length := by
  rw [executeStep_snapshots]

lemma animateTick_snapshots_le (op : Operation) (layouts : String → String)
    (s : EngineState) (h : s.snapshots.length ≤ 101) :
    (animateTick op layouts s).snapshots.length ≤ 101 := by
  unfold animateTick
  split
  · rw [executeStep_snapshots]
    simp only [List.length_append, List.length_cons, List.length_nil]
    split
    · rename_i hgt
      rw [List.length_drop]
      omega
    · rename_i hle
      omega
  · exact h

lemma animateTickN_snapshots_le (op : Operation) (layouts : String → String) :
    ∀ (n : Nat) (s : EngineState), s.snapshots.length ≤ 101 →
      (animateTickN op layouts n s).snapshots.length ≤ 101 := by
  intro n
  induction n with
  | zero => intro s h; exact h
  | succ n ih =>
    intro s h
    rw [animateTickN]
    exact ih _ (animateTick_snapshots_le op layouts s h)

/-- Counterexample for C9: `stepForward` itself never drops undo-stack
entries.  On the matmul(5, 4) engine (125 iterations), 102 `stepForward`
calls from the fresh state leave 102 snapshots on the undo stack — beyond
the 100-entry high-water mark (and beyond the 101-entry ceiling the
animation loop's trimming maintains). -/
theorem stepforward_snapshot_growth_counterexample :
    (stepForwardN (createMatmulOperation 5 4) (fun _ => "row") 102
        (initEngine (createMatmulOperation 5 4) "ijk" 64 16)).snapshots.length = 102 ∧
    100 < (stepForwardN (createMatmulOperation 5 4) (fun _ => "row") 102
        (initEngine (createMatmulOperation 5 4) "ijk" 64 16)).snapshots.length := by
  have h := stepForwardN_snapshots_length (createMatmulOperation 5 4) (fun _ => "row")
    102 (initEngine (createMatmulOperation 5 4) "ijk" 64 16)
  have hlen : (initEngine (createMatmulOperation 5 4) "ijk" 64 16).iterations.length
      = 125 := by
    show ((generateIterations (createMatmulOperation 5 4) "ijk").getD []).length = 125
    rw [show generateIterations (createMatmulOperation 5 4) "ijk"
        = some (nestLoops (createMatmulOperation 5 4).loopBounds
            (createMatmulOperation 5 4).loopDims ["i", "j", "k"] fun _ => 0) from rfl,
      Option.getD_some, nestLoops_length]
    rfl
  rw [hlen] at h
  simp only [initEngine, List.length_nil] at h ⊢
  omega

/-- C9 (amended): every `stepForward` below the end of the iteration list
pushes a full snapshot onto the undo stack before executing the step, but
`stepForward` itself never drops entries — after `n` calls the stack has
grown by `min(n, remaining iterations)` entries; the dropping of the oldest
entries (keeping the most recent 50 once the depth exceeds 100) is performed
by the animation loop, whose ticks keep the undo-stack depth bounded by 101
over arbitrarily long playback. -/
theorem stepforward_undo_stack (op : Operation) (layouts : String → String) :
    (∀ s : EngineState, s.currentIteration < s.iterations.length →
      (stepForward op layouts s).snapshots = s.snapshots ++ [mkSnapshot s]) ∧
    (∀ (n : Nat) (s : EngineState),
      (stepForwardN op layouts n s).snapshots.length
        = s.snapshots.length + min n (s.iterations.length - s.currentIteration)) ∧
    (∀ (n : Nat) (s : EngineState), s.snapshots.length ≤ 101 →
      (animateTickN op layouts n s).snapshots.length ≤ 101) :=
  ⟨fun s h => stepForward_snapshots_push op layouts s h,
    fun n s => stepForwardN_snapshots_length op layouts n s,
    fun n s h => animateTickN_snapshots_le op layouts n s h⟩

/-- Witness for C9 (amended): on the fresh matmul(2, 4) engine, one
`stepForward` pushes exactly the initial snapshot, and three animation ticks
keep the undo stack within the 101-entry bound. -/
theorem stepforward_undo_stack_instance :
    (stepForward (createMatmulOperation 2 4) (fun _ => "row")
        (initEngine (createMatmulOperation 2 4) "ijk" 64 16)).snapshots
      = (initEngine (createMatmulOperation 2 4) "ijk" 64 16).snapshots
          ++ [mkSnapshot (initEngine (createMatmulOperation 2 4) "ijk" 64 16)] ∧
    (animateTickN (createMatmulOperation 2 4) (fun _ => "row") 3
        (initEngine (createMatmulOperation 2 4) "ijk" 64 16)).snapshots.length ≤ 101 :=
  ⟨(stepforward_undo_stack (createMatmulOperation 2 4) (fun _ => "row")).1
      (initEngine (createMatmulOperation 2 4) "ijk" 64 16) (by decide),
    (stepforward_undo_stack (createMatmulOperation 2 4) (fun _ => "row")).2.2 3
      (initEngine (createMatmulOperation 2 4) "ijk" 64 16) (by decide)⟩
